import Mathlib

/-!
Verification development for the qrml library (qrml_pack/qrml/qrml.py).

The Python source is shallowly embedded below.  Numpy float vectors are
modelled as rational vectors (`Vec d`), and all geometric comparisons are
carried out in exact rational arithmetic; square roots are avoided by
working with squared norms, and collaborator outputs that are genuinely
irrational (KNN distances, solver outputs) are taken as rational inputs
constrained by the exact contracts the source relies on (for instance a
KNN distance `r` satisfies `r * r` = squared Euclidean distance).
External collaborators named by the specification (KNN search, PCA
variance ratios, the Dijkstra shortest-path routine, the nonconvex QCQP
solver, the alpha-shape primitive) enter as parameters together with
hypotheses expressing exactly the contract the surrounding code assumes.
-/

/-- Rational vector of dimension `d`, standing in for a numpy float array. -/
abbrev Vec (d : ℕ) : Type := Fin d → ℚ

/-- Dot product of two vectors, as in np.dot. -/
def dotp {d : ℕ} (u v : Vec d) : ℚ :=
  ((List.finRange d).map (fun i => u i * v i)).sum

/-- Squared Euclidean norm of a vector. -/
def sqNorm {d : ℕ} (u : Vec d) : ℚ := dotp u u

/-- Squared Euclidean distance between two vectors. -/
def sqDist {d : ℕ} (u v : Vec d) : ℚ := sqNorm (u - v)

lemma sum_map_add {α : Type} (l : List α) (f g : α → ℚ) :
    (l.map (fun i => f i + g i)).sum = (l.map f).sum + (l.map g).sum := by
  induction l with
  | nil => simp
  | cons a t ih => simp [ih]; ring

lemma sum_map_neg {α : Type} (l : List α) (f : α → ℚ) :
    (l.map (fun i => -f i)).sum = -(l.map f).sum := by
  induction l with
  | nil => simp
  | cons a t ih => simp [ih]; ring

lemma dotp_comm {d : ℕ} (u v : Vec d) : dotp u v = dotp v u := by
  unfold dotp
  congr 1
  exact List.map_congr_left (fun i _ => mul_comm (u i) (v i))

lemma sqNorm_nonneg {d : ℕ} (u : Vec d) : 0 ≤ sqNorm u := by
  unfold sqNorm dotp
  induction (List.finRange d) with
  | nil => simp
  | cons a t ih =>
    simp only [List.map_cons, List.sum_cons]
    have h1 : 0 ≤ u a * u a := mul_self_nonneg (u a)
    linarith

/-- Law-of-cosines expansion for squared norms. -/
lemma sqNorm_sub_expand {d : ℕ} (a b : Vec d) :
    sqNorm (a - b) = sqNorm a - 2 * dotp a b + sqNorm b := by
  unfold sqNorm dotp
  induction (List.finRange d) with
  | nil => simp
  | cons x t ih =>
    simp only [List.map_cons, List.sum_cons, Pi.sub_apply] at *
    ring_nf
    ring_nf at ih
    linarith

lemma sqDist_comm {d : ℕ} (u v : Vec d) : sqDist u v = sqDist v u := by
  unfold sqDist sqNorm dotp
  congr 1
  refine List.map_congr_left (fun i _ => ?_)
  simp only [Pi.sub_apply]
  ring

lemma sqDist_self {d : ℕ} (u : Vec d) : sqDist u u = 0 := by
  unfold sqDist sqNorm dotp
  simp

lemma sqDist_add_left {d : ℕ} (x b : Vec d) : sqDist (x + b) b = sqNorm x := by
  unfold sqDist
  congr 1
  funext i
  simp

lemma sqDist_zero_right {d : ℕ} (x : Vec d) : sqDist x 0 = sqNorm x := by
  unfold sqDist
  congr 1
  funext i
  simp

/-- Two nonnegative rationals with equal squares are equal. -/
lemma sq_eq_of_nonneg {a b : ℚ} (ha : 0 ≤ a) (hb : 0 ≤ b) (h : a * a = b * b) :
    a = b := by
  nlinarith

/-!
## NeighborGraphBuilder: Simplex.find_visible_edge (qrml.py 888-932)

The Python method receives the KNN candidate indices `ind` and distances
`dist` for the point `idx` and keeps a candidate `y` unless some other
candidate `z` satisfies np.dot(point - z, y - z) < 0.  Indices and
distances travel together, so the embedding filters the zipped list.
-/

/-- Embedding of Simplex.find_visible_edge: keep the candidate pairs
(index, distance) whose index `y` has no other candidate `z` with
dotp (point - z) (y - z) strictly negative. -/
def find_visible_edge {n d : ℕ} (P : Fin n → Vec d) (idx : Fin n)
    (cands : List (Fin n × ℚ)) : List (Fin n × ℚ) :=
  cands.filter (fun yc =>
    cands.all (fun zc =>
      zc.1 == yc.1 || decide (0 ≤ dotp (P idx - P zc.1) (P yc.1 - P zc.1))))

/-- The visibility filter as the specification words it: a candidate `y` is
removed when some other candidate `z` makes the angle at `z` obtuse OR
RIGHT, that is when the dot product is less than or equal to zero. -/
def visibleSpecFilter {n d : ℕ} (P : Fin n → Vec d) (idx : Fin n)
    (cands : List (Fin n × ℚ)) : List (Fin n × ℚ) :=
  cands.filter (fun yc =>
    cands.all (fun zc =>
      zc.1 == yc.1 || decide (0 < dotp (P idx - P zc.1) (P yc.1 - P zc.1))))

/-- Concrete pointcloud refuting claim C3 at the right-angle boundary:
point 0 = (0,0), candidate 1 = (3,4), candidate 2 = (6, 7/4). -/
def c3P : Fin 3 → Vec 2 :=
  fun i => if i = 1 then (fun j => if j = 0 then 3 else 4)
    else if i = 2 then (fun j => if j = 0 then 6 else 7/4)
    else 0

/-- KNN candidate list for point 0 of `c3P`, ascending by distance
(distance to point 1 is 5, distance to point 2 is 25/4). -/
def c3cands : List (Fin 3 × ℚ) := [(1, 5), (2, 25/4)]

/-- C3, counterexample.  In `c3P` the angle at candidate 1 between
(point - z) and (y - z), for y = candidate 2, is exactly right (dot
product zero), so by the claim candidate 2 must be discarded; the code
keeps it, because Simplex.find_visible_edge only discards on a strictly
negative dot product.  Hence code and claimed filter disagree here. -/
theorem c3_find_visible_edge_counterexample :
    dotp (c3P 0 - c3P 1) (c3P 2 - c3P 1) = 0 ∧
    (find_visible_edge c3P 0 c3cands).map Prod.fst = [1, 2] ∧
    (visibleSpecFilter c3P 0 c3cands).map Prod.fst = [1] := by
  refine ⟨by with_unfolding_all decide, by with_unfolding_all decide,
    by with_unfolding_all decide⟩

/-- C3, amended.  A candidate pair is retained by find_visible_edge if and
only if it is a candidate and no other candidate z makes the dot product
of (point - z) and (y - z) STRICTLY negative; a right angle (dot product
exactly zero) does not shadow a candidate. -/
theorem c3_find_visible_edge_retained {n d : ℕ} (P : Fin n → Vec d)
    (idx : Fin n) (cands : List (Fin n × ℚ)) (yc : Fin n × ℚ) :
    yc ∈ find_visible_edge P idx cands ↔
      yc ∈ cands ∧ ∀ zc ∈ cands, zc.1 ≠ yc.1 →
        0 ≤ dotp (P idx - P zc.1) (P yc.1 - P zc.1) := by
  unfold find_visible_edge
  rw [List.mem_filter]
  constructor
  · rintro ⟨hmem, hall⟩
    refine ⟨hmem, fun zc hz hne => ?_⟩
    rw [List.all_eq_true] at hall
    have h := hall zc hz
    rw [Bool.or_eq_true, beq_iff_eq, decide_eq_true_eq] at h
    rcases h with h | h
    · exact absurd h hne
    · exact h
  · rintro ⟨hmem, hcond⟩
    refine ⟨hmem, ?_⟩
    rw [List.all_eq_true]
    intro zc hz
    rw [Bool.or_eq_true, beq_iff_eq, decide_eq_true_eq]
    by_cases h : zc.1 = yc.1
    · exact Or.inl h
    · exact Or.inr (hcond zc hz h)

/-!
## NeighborGraphBuilder: Simplex.find_safe_edges (qrml.py 934-992)

The method walks the visible candidates in ascending distance order.  At
step j it asks the PCA collaborator for the local dimension estimate of
the first j edge vectors (np.sum of explained variance ratios above the
threshold); the estimate is modelled by a function `ld : Nat -> Nat`.
When the estimate strictly exceeds the previous one AND the distance gap
dist[j-1] - dist[j-2] strictly exceeds edge_sen * np.mean(dist) -- the
mean of the WHOLE visible distance list, computed once before the loop --
the edge set is cut at j-1; otherwise all visible edges are written.
Writes go to both (idx, y) and (y, idx) of the edge matrix, mirroring
the two vectorised numpy assignments.  On an empty candidate list the
source would raise an IndexError at ind[0]; such inputs are out of scope.
-/

/-- Square matrix of rationals, standing in for Simplex.edge_matrix. -/
abbrev Mtx (n : ℕ) : Type := Fin n → Fin n → ℚ

/-- The distance gap dist[j-1] - dist[j-2] inspected at loop index j. -/
def distGap (dist : List ℚ) (j : ℕ) : ℚ := dist.getD (j-1) 0 - dist.getD (j-2) 0

/-- Arithmetic mean of a list of rationals, as np.mean. -/
def meanQ (l : List ℚ) : ℚ := l.sum / l.length

/-- One symmetric write pair: edge_matrix[idx, y] = d and
edge_matrix[y, idx] = d. -/
def writePair {n : ℕ} (M : Mtx n) (idx : Fin n) (p : Fin n × ℚ) : Mtx n :=
  fun a b =>
    if a = idx ∧ b = p.1 then p.2
    else if a = p.1 ∧ b = idx then p.2
    else M a b

/-- The vectorised numpy assignments edge_matrix[idx, ind] = dist and
edge_matrix[ind, idx] = dist, as a fold of symmetric write pairs. -/
def writePairs {n : ℕ} (M : Mtx n) (idx : Fin n) (ps : List (Fin n × ℚ)) : Mtx n :=
  ps.foldl (fun acc p => writePair acc idx p) M

/-- The main loop of Simplex.find_safe_edges, threading the previous
dimension estimate dim0; fires the cut at j-1 when the estimate grows and
the gap clears the threshold, otherwise falls through to writing every
visible edge. -/
def safeWriteLoop {n : ℕ} (idx : Fin n) (cands : List (Fin n × ℚ))
    (ld : ℕ → ℕ) (thr : ℚ) : ℕ → ℕ → ℕ → Mtx n → Mtx n
  | _, _, 0, M => writePairs M idx cands
  | j, dim0, rem+1, M =>
    let dim1 := ld j
    if dim0 < dim1 ∧ thr < distGap (cands.map Prod.snd) j
    then writePairs M idx (cands.take (j-1))
    else safeWriteLoop idx cands ld thr (j+1) dim1 rem M

/-- Embedding of Simplex.find_safe_edges.  The loop runs j = 2 .. length,
starts with dim0 = dim1 = ld 2 (so the very first test cannot fire), and
uses the single threshold edge_sen * mean of all visible distances. -/
def find_safe_edges {n : ℕ} (ld : ℕ → ℕ) (idx : Fin n)
    (cands : List (Fin n × ℚ)) (edge_sen : ℚ) (M : Mtx n) : Mtx n :=
  safeWriteLoop idx cands ld (edge_sen * meanQ (cands.map Prod.snd))
    2 (ld 2) (cands.length - 1) M

/-- The first index at which the code's cut condition holds: the running
estimate strictly increases and the gap exceeds edge_sen times the mean
of ALL visible distances. -/
def safeFirstCut (ld : ℕ → ℕ) (dist : List ℚ) (edge_sen : ℚ) : Option ℕ :=
  (List.range' 3 (dist.length - 2)).find? (fun j =>
    decide (ld (j-1) < ld j) && decide (edge_sen * meanQ dist < distGap dist j))

/-- The retained edge list as claim C4 words it: cut at the first j whose
estimate strictly increases over its previous value and whose gap exceeds
edge_sen times the mean of the RETAINED (first j-1) distances. -/
def specSafeRetained {n : ℕ} (ld : ℕ → ℕ) (cands : List (Fin n × ℚ))
    (edge_sen : ℚ) : List (Fin n × ℚ) :=
  match (List.range' 3 (cands.length - 2)).find? (fun j =>
      decide (ld (j-1) < ld j) &&
      decide (edge_sen * meanQ ((cands.map Prod.snd).take (j-1))
        < distGap (cands.map Prod.snd) j)) with
  | some j => cands.take (j-1)
  | none => cands

lemma safeWriteLoop_find {n : ℕ} (idx : Fin n) (cands : List (Fin n × ℚ))
    (ld : ℕ → ℕ) (thr : ℚ) (M : Mtx n) :
    ∀ (rem j : ℕ),
      safeWriteLoop idx cands ld thr (j+1) (ld j) rem M =
        match (List.range' (j+1) rem).find? (fun j2 =>
            decide (ld (j2-1) < ld j2) &&
            decide (thr < distGap (cands.map Prod.snd) j2)) with
        | some j2 => writePairs M idx (cands.take (j2-1))
        | none => writePairs M idx cands := by
  intro rem
  induction rem with
  | zero => intro j; simp [safeWriteLoop]
  | succ r ih =>
    intro j
    rw [List.range'_succ, List.find?_cons]
    have hj1 : j + 1 - 1 = j := by omega
    by_cases hfire : ld j < ld (j+1) ∧ thr < distGap (cands.map Prod.snd) (j+1)
    · have hcond : (decide (ld (j+1-1) < ld (j+1)) &&
          decide (thr < distGap (cands.map Prod.snd) (j+1))) = true := by
        rw [hj1]
        simp [hfire.1, hfire.2]
      rw [hcond]
      simp only [safeWriteLoop]
      rw [if_pos hfire]
    · have hcond : (decide (ld (j+1-1) < ld (j+1)) &&
          decide (thr < distGap (cands.map Prod.snd) (j+1))) = false := by
        rw [hj1]
        rcases not_and_or.mp hfire with h | h <;> simp [h]
      rw [hcond]
      simp only [safeWriteLoop]
      rw [if_neg hfire]
      exact ih (j+1)

/-- C4, amended.  find_safe_edges writes exactly the first j-1 visible
edges where j is the FIRST index at which the running estimate strictly
increases over its previous value AND the gap to the next candidate
exceeds edge_sen times the mean of ALL visible distances (a single
threshold fixed before the loop); with no such j it writes all visible
edges.  The claimed threshold -- edge_sen times the mean of only the
retained distances -- is not what the code computes. -/
theorem c4_find_safe_edges_cut {n : ℕ} (ld : ℕ → ℕ) (idx : Fin n)
    (cands : List (Fin n × ℚ)) (edge_sen : ℚ) (M : Mtx n) :
    find_safe_edges ld idx cands edge_sen M =
      match safeFirstCut ld (cands.map Prod.snd) edge_sen with
      | some j => writePairs M idx (cands.take (j-1))
      | none => writePairs M idx cands := by
  unfold find_safe_edges safeFirstCut
  have hlen : (cands.map Prod.snd).length = cands.length := by
    simp
  rw [hlen]
  rcases hc : cands.length - 1 with _ | r
  · simp [safeWriteLoop]
    have : cands.length - 2 = 0 := by omega
    rw [this]
    simp
  · simp only [safeWriteLoop]
    have hnofire : ¬ (ld 2 < ld 2 ∧
        edge_sen * meanQ (cands.map Prod.snd)
          < distGap (cands.map Prod.snd) 2) := by
      rintro ⟨h, -⟩
      exact lt_irrefl _ h
    rw [if_neg hnofire]
    have h2 : cands.length - 2 = r := by omega
    have := safeWriteLoop_find idx cands ld
      (edge_sen * meanQ (cands.map Prod.snd)) M r 2
    rw [this, h2]

/-- Pointcloud for the C4 counterexample (only lengths and the abstract
PCA estimates matter; the candidate distances are 1, 1, 6, 100). -/
def c4cands : List (Fin 5 × ℚ) := [(1, 1), (2, 1), (3, 6), (4, 100)]

/-- Abstract PCA local-dimension estimates for the C4 counterexample: the
estimate is 1 for two edges and 2 from three edges on. -/
def c4ld : ℕ → ℕ := fun j => if j ≤ 2 then 1 else 2

/-- C4, counterexample.  With distances [1, 1, 6, 100], estimates rising
1 -> 2 at j = 3 and edge_sen = 1: the gap 6 - 1 = 5 exceeds the mean of
the retained distances (1), so the claim cuts the set to the first two
edges; but the code compares against the mean of ALL distances (27), the
test fails, no cut happens, and the fourth edge (distance 100) is
written.  The claimed retained set and the code disagree. -/
theorem c4_find_safe_edges_counterexample :
    (find_safe_edges c4ld 0 c4cands 1 (fun _ _ => 0)) 0 4 = 100 ∧
    specSafeRetained c4ld c4cands 1 = [(1, 1), (2, 1)] := by
  refine ⟨by with_unfolding_all decide, by with_unfolding_all decide⟩

/-!
## NeighborGraphBuilder: Simplex.build_simplex (qrml.py 994-1038)

build_simplex queries the KNN collaborator for every point (k nearest
candidates, ascending by distance, the point itself removed), prunes each
candidate list with find_visible_edge, and then runs find_safe_edges for
every point in index order, accumulating the shared edge matrix.  The
KNN output is a parameter `knn`; its contract (distances are the true
Euclidean lengths) is a hypothesis of the theorems.  The per-point PCA
estimates are the parameter `ld`.  The Python code computes all visible
lists first and then all safe-edge passes; since find_visible_edge never
reads the edge matrix, fusing the two list comprehensions into one fold
leaves every intermediate matrix identical.
-/

/-- Embedding of Simplex.build_simplex: start from the zero matrix and run
the visibility pruning plus safe-edge writes for every point in order. -/
def build_simplex {n d : ℕ} (P : Fin n → Vec d)
    (knn : Fin n → List (Fin n × ℚ)) (ld : Fin n → ℕ → ℕ)
    (edge_sen : ℚ) : Mtx n :=
  (List.finRange n).foldl
    (fun M i => find_safe_edges (ld i) i (find_visible_edge P i (knn i)) edge_sen M)
    (fun _ _ => 0)

/-- The per-point edge lists Simplex.edges: indexes of the nonzero entries
of each matrix row. -/
def simplexEdges {n : ℕ} (M : Mtx n) (i : Fin n) : List (Fin n) :=
  (List.finRange n).filter (fun j => decide (M i j ≠ 0))

/-- A write pair is admissible for point idx when its distance is
nonnegative and squares to the squared Euclidean length of the edge. -/
def GoodPair {n d : ℕ} (P : Fin n → Vec d) (idx : Fin n) (p : Fin n × ℚ) : Prop :=
  0 ≤ p.2 ∧ p.2 * p.2 = sqDist (P idx) (P p.1)

/-- Symmetry plus edge-length correctness of an edge matrix. -/
def GoodMtx {n d : ℕ} (P : Fin n → Vec d) (M : Mtx n) : Prop :=
  (∀ a b, M a b = M b a) ∧
    ∀ a b, M a b ≠ 0 → 0 ≤ M a b ∧ M a b * M a b = sqDist (P a) (P b)

lemma writePair_apply {n : ℕ} (M : Mtx n) (idx : Fin n) (p : Fin n × ℚ)
    (a b : Fin n) :
    writePair M idx p a b =
      if (a = idx ∧ b = p.1) ∨ (a = p.1 ∧ b = idx) then p.2 else M a b := by
  unfold writePair
  by_cases h1 : a = idx ∧ b = p.1
  · simp [h1]
  · by_cases h2 : a = p.1 ∧ b = idx
    · simp [h1, h2]
    · simp [h1, h2]

lemma writePair_good {n d : ℕ} {P : Fin n → Vec d} {M : Mtx n} {idx : Fin n}
    {p : Fin n × ℚ} (hp : GoodPair P idx p) (hM : GoodMtx P M) :
    GoodMtx P (writePair M idx p) := by
  obtain ⟨hsym, hgood⟩ := hM
  constructor
  · intro a b
    rw [writePair_apply, writePair_apply]
    by_cases h : (a = idx ∧ b = p.1) ∨ (a = p.1 ∧ b = idx)
    · rw [if_pos h, if_pos (Or.symm (h.imp And.symm And.symm))]
    · rw [if_neg h, if_neg ?_]
      · exact hsym a b
      · intro hc
        exact h (Or.symm (hc.imp And.symm And.symm))
  · intro a b hne
    rw [writePair_apply] at hne ⊢
    by_cases h : (a = idx ∧ b = p.1) ∨ (a = p.1 ∧ b = idx)
    · rw [if_pos h] at hne ⊢
      rcases h with ⟨ha, hb⟩ | ⟨ha, hb⟩
      · subst ha; subst hb; exact ⟨hp.1, hp.2⟩
      · subst ha; subst hb
        exact ⟨hp.1, hp.2.trans (sqDist_comm _ _)⟩
    · rw [if_neg h] at hne ⊢
      exact hgood a b hne

lemma writePairs_good {n d : ℕ} {P : Fin n → Vec d} {idx : Fin n}
    (ps : List (Fin n × ℚ)) (hps : ∀ p ∈ ps, GoodPair P idx p) :
    ∀ {M : Mtx n}, GoodMtx P M → GoodMtx P (writePairs M idx ps) := by
  induction ps with
  | nil => intro M hM; exact hM
  | cons p t ih =>
    intro M hM
    have h1 : GoodMtx P (writePair M idx p) :=
      writePair_good (hps p (List.mem_cons_self p t)) hM
    exact ih (fun q hq => hps q (List.mem_cons_of_mem p hq)) h1

lemma safeWriteLoop_good {n d : ℕ} {P : Fin n → Vec d} {idx : Fin n}
    (cands : List (Fin n × ℚ)) (hps : ∀ p ∈ cands, GoodPair P idx p)
    (ld : ℕ → ℕ) (thr : ℚ) :
    ∀ (rem j dim0 : ℕ) {M : Mtx n}, GoodMtx P M →
      GoodMtx P (safeWriteLoop idx cands ld thr j dim0 rem M) := by
  intro rem
  induction rem with
  | zero =>
    intro j dim0 M hM
    exact writePairs_good cands hps hM
  | succ r ih =>
    intro j dim0 M hM
    simp only [safeWriteLoop]
    split
    · exact writePairs_good _
        (fun p hp => hps p (List.take_subset _ _ hp)) hM
    · exact ih _ _ hM

lemma build_simplex_good {n d : ℕ} (P : Fin n → Vec d)
    (knn : Fin n → List (Fin n × ℚ)) (ld : Fin n → ℕ → ℕ) (edge_sen : ℚ)
    (hknn : ∀ i, ∀ p ∈ knn i, GoodPair P i p) :
    GoodMtx P (build_simplex P knn ld edge_sen) := by
  unfold build_simplex
  have hstep : ∀ (l : List (Fin n)) (M : Mtx n), GoodMtx P M →
      GoodMtx P (l.foldl
        (fun M i => find_safe_edges (ld i) i (find_visible_edge P i (knn i)) edge_sen M)
        M) := by
    intro l
    induction l with
    | nil => intro M hM; exact hM
    | cons i t ih =>
      intro M hM
      simp only [List.foldl_cons]
      apply ih
      unfold find_safe_edges
      refine safeWriteLoop_good _ ?_ _ _ _ _ _ hM
      intro p hp
      unfold find_visible_edge at hp
      exact hknn i p (List.mem_of_mem_filter hp)
  exact hstep _ _ ⟨fun a b => rfl, fun a b hne => absurd rfl hne⟩

/-- C5, confirmed.  Under the KNN collaborator contract (each candidate
distance is nonnegative and squares to the squared Euclidean length of
the corresponding edge), the edge matrix produced by build_simplex is
symmetric, has zero diagonal, and every nonzero entry is the Euclidean
distance between its two endpoints. -/
theorem c5_build_simplex_symmetric {n d : ℕ} (P : Fin n → Vec d)
    (knn : Fin n → List (Fin n × ℚ)) (ld : Fin n → ℕ → ℕ) (edge_sen : ℚ)
    (hknn : ∀ i, ∀ p ∈ knn i, 0 ≤ p.2 ∧ p.2 * p.2 = sqDist (P i) (P p.1)) :
    (∀ i j, build_simplex P knn ld edge_sen i j =
      build_simplex P knn ld edge_sen j i) ∧
    (∀ i, build_simplex P knn ld edge_sen i i = 0) ∧
    (∀ i j, build_simplex P knn ld edge_sen i j ≠ 0 →
      0 ≤ build_simplex P knn ld edge_sen i j ∧
      build_simplex P knn ld edge_sen i j * build_simplex P knn ld edge_sen i j
        = sqDist (P i) (P j)) := by
  obtain ⟨hsym, hgood⟩ := build_simplex_good P knn ld edge_sen hknn
  refine ⟨hsym, ?_, hgood⟩
  intro i
  by_contra hne
  have h := (hgood i i hne).2
  rw [sqDist_self] at h
  have : build_simplex P knn ld edge_sen i i = 0 := by nlinarith
  exact hne this

/-- Pointcloud (one dimensional) for the C5 witness: coordinates 0, 1, 3. -/
def c5P : Fin 3 → Vec 1 := fun i => fun _ => if i = 0 then 0 else if i = 1 then 1 else 3

/-- KNN output for `c5P` with k = 2: ascending candidate lists with exact
distances. -/
def c5knn : Fin 3 → List (Fin 3 × ℚ) :=
  fun i => if i = 0 then [(1, 1), (2, 3)]
    else if i = 1 then [(0, 1), (2, 2)]
    else [(1, 2), (0, 3)]

/-- C5, witness: the symmetry theorem applied to the concrete three-point
cloud `c5P` with its exact KNN output. -/
theorem c5_build_simplex_symmetric_witness :
    (∀ i j, build_simplex c5P c5knn (fun _ _ => 1) 1 i j =
      build_simplex c5P c5knn (fun _ _ => 1) 1 j i) ∧
    (∀ i, build_simplex c5P c5knn (fun _ _ => 1) 1 i i = 0) ∧
    (∀ i j, build_simplex c5P c5knn (fun _ _ => 1) 1 i j ≠ 0 →
      0 ≤ build_simplex c5P c5knn (fun _ _ => 1) 1 i j ∧
      build_simplex c5P c5knn (fun _ _ => 1) 1 i j *
        build_simplex c5P c5knn (fun _ _ => 1) 1 i j
        = sqDist (c5P i) (c5P j)) :=
  c5_build_simplex_symmetric c5P c5knn (fun _ _ => 1) 1
    (by with_unfolding_all decide)

/-!
## Claim C10: survival of the nearest edge, and isolated vertices

A strictly shadowing candidate is strictly closer than the candidate it
shadows, so a minimal-distance candidate always survives the visibility
pruning, and the curvature cut keeps at least the first edge.  The write
carrying it can still be the number zero when the nearest candidate is a
duplicate point: numpy then stores 0 and np.where treats the entry as no
edge, which is what the counterexample below exhibits.
-/

lemma shadow_strict {d : ℕ} (x z y : Vec d)
    (h : dotp (x - z) (y - z) < 0) : sqDist x z < sqDist x y := by
  have hexp := sqNorm_sub_expand (x - z) (y - z)
  have heq : (x - z) - (y - z) = x - y := by
    funext i
    simp only [Pi.sub_apply]
    ring
  have hnn := sqNorm_nonneg (y - z)
  unfold sqDist
  rw [← heq, hexp]
  nlinarith

lemma writePair_entry_stable {n d : ℕ} {P : Fin n → Vec d} {M : Mtx n}
    {idx : Fin n} {p : Fin n × ℚ} (hp : GoodPair P idx p) {i t : Fin n} {v : ℚ}
    (hv0 : 0 ≤ v) (hv : v * v = sqDist (P i) (P t)) (hM : M i t = v) :
    writePair M idx p i t = v := by
  rw [writePair_apply]
  split
  next h =>
    rcases h with ⟨hi, ht⟩ | ⟨hi, ht⟩
    · refine sq_eq_of_nonneg hp.1 hv0 ?_
      rw [hp.2, hv, hi, ht]
    · refine sq_eq_of_nonneg hp.1 hv0 ?_
      rw [hp.2, hv, ← hi, ← ht, sqDist_comm]
  next h => exact hM

lemma writePairs_entry_stable {n d : ℕ} {P : Fin n → Vec d} {idx : Fin n}
    (ps : List (Fin n × ℚ)) (hps : ∀ p ∈ ps, GoodPair P idx p)
    {i t : Fin n} {v : ℚ} (hv0 : 0 ≤ v) (hv : v * v = sqDist (P i) (P t)) :
    ∀ {M : Mtx n}, M i t = v → writePairs M idx ps i t = v := by
  induction ps with
  | nil => intro M hM; exact hM
  | cons p tl ih =>
    intro M hM
    exact ih (fun q hq => hps q (List.mem_cons_of_mem p hq))
      (writePair_entry_stable (hps p (List.mem_cons_self p tl)) hv0 hv hM)

lemma safeWriteLoop_entry_stable {n d : ℕ} {P : Fin n → Vec d} {idx : Fin n}
    (cands : List (Fin n × ℚ)) (hps : ∀ p ∈ cands, GoodPair P idx p)
    (ld : ℕ → ℕ) (thr : ℚ) {i t : Fin n} {v : ℚ}
    (hv0 : 0 ≤ v) (hv : v * v = sqDist (P i) (P t)) :
    ∀ (rem j dim0 : ℕ) {M : Mtx n}, M i t = v →
      safeWriteLoop idx cands ld thr j dim0 rem M i t = v := by
  intro rem
  induction rem with
  | zero =>
    intro j dim0 M hM
    exact writePairs_entry_stable cands hps hv0 hv hM
  | succ r ih =>
    intro j dim0 M hM
    simp only [safeWriteLoop]
    split
    · exact writePairs_entry_stable _
        (fun p hp => hps p (List.take_subset _ _ hp)) hv0 hv hM
    · exact ih _ _ hM

lemma safeWriteLoop_entry_head {n d : ℕ} {P : Fin n → Vec d} {idx : Fin n}
    (hd : Fin n × ℚ) (rest : List (Fin n × ℚ))
    (hps : ∀ p ∈ hd :: rest, GoodPair P idx p) (ld : ℕ → ℕ) (thr : ℚ) :
    ∀ (rem j dim0 : ℕ), 2 ≤ j → ∀ (M : Mtx n),
      safeWriteLoop idx (hd :: rest) ld thr j dim0 rem M idx hd.1 = hd.2 := by
  have hhd : GoodPair P idx hd := hps hd (List.mem_cons_self hd rest)
  have hfirst : ∀ (M : Mtx n), writePair M idx hd idx hd.1 = hd.2 := by
    intro M
    rw [writePair_apply, if_pos (Or.inl ⟨rfl, rfl⟩)]
  intro rem
  induction rem with
  | zero =>
    intro j dim0 hj M
    unfold safeWriteLoop writePairs
    rw [List.foldl_cons]
    exact writePairs_entry_stable rest
      (fun q hq => hps q (List.mem_cons_of_mem hd hq)) hhd.1 hhd.2 (hfirst M)
  | succ r ih =>
    intro j dim0 hj M
    simp only [safeWriteLoop]
    split
    · have htake : (hd :: rest).take (j-1) = hd :: rest.take (j-2) := by
        have h1 : j - 1 = (j - 2) + 1 := by omega
        rw [h1, List.take_succ_cons]
      rw [htake]
      unfold writePairs
      rw [List.foldl_cons]
      exact writePairs_entry_stable _
        (fun q hq => hps q
          (List.mem_cons_of_mem hd (List.take_subset _ _ hq))) hhd.1 hhd.2 (hfirst M)
    · exact ih (j+1) _ (by omega) M

/-- C10, amended.  Under the KNN contract with all candidate distances
strictly positive (a pointcloud without duplicated points) and candidate
lists nonempty and ascending, every vertex keeps at least one incident
edge after build_simplex: the edge to its nearest candidate survives
the visibility pruning (a strict shadow would be strictly closer) and
the curvature cut (which always writes the first edge), and its strictly
positive length survives every later overwrite. -/
theorem c10_no_isolated_vertex {n d : ℕ} (P : Fin n → Vec d)
    (knn : Fin n → List (Fin n × ℚ)) (ld : Fin n → ℕ → ℕ) (edge_sen : ℚ)
    (hknn : ∀ i, ∀ p ∈ knn i, 0 ≤ p.2 ∧ p.2 * p.2 = sqDist (P i) (P p.1))
    (hsorted : ∀ i, (knn i).Pairwise (fun p q => p.2 ≤ q.2))
    (hpos : ∀ i, ∀ p ∈ knn i, 0 < p.2)
    (hne : ∀ i, knn i ≠ []) :
    ∀ i, ∃ j, build_simplex P knn ld edge_sen i j ≠ 0 := by
  intro i
  obtain ⟨hd, rest, hcons⟩ := List.exists_cons_of_ne_nil (hne i)
  have hhd_mem : hd ∈ knn i := by rw [hcons]; exact List.mem_cons_self hd rest
  have hhd_good : GoodPair P i hd := hknn i hd hhd_mem
  have hhd_pos : 0 < hd.2 := hpos i hd hhd_mem
  -- the nearest candidate survives the visibility pruning
  have hvispred : ((knn i).all (fun zc =>
      zc.1 == hd.1 || decide (0 ≤ dotp (P i - P zc.1) (P hd.1 - P zc.1)))) = true := by
    rw [List.all_eq_true]
    intro zc hz
    rw [Bool.or_eq_true, beq_iff_eq, decide_eq_true_eq]
    by_cases hzeq : zc.1 = hd.1
    · exact Or.inl hzeq
    · refine Or.inr (le_of_not_lt fun hneg => ?_)
      have hlt := shadow_strict (P i) (P zc.1) (P hd.1) hneg
      have hz_good := hknn i zc hz
      have hsq : zc.2 * zc.2 < hd.2 * hd.2 := by
        rw [hz_good.2, hhd_good.2]
        exact hlt
      have hzc_lt : zc.2 < hd.2 := by nlinarith [hz_good.1, hhd_good.1]
      have hz_rest : zc ∈ rest := by
        rw [hcons] at hz
        rcases List.mem_cons.mp hz with h | h
        · exact absurd (congrArg Prod.fst h) hzeq
        · exact h
      have hle : hd.2 ≤ zc.2 := by
        have hp := hsorted i
        rw [hcons, List.pairwise_cons] at hp
        exact hp.1 zc hz_rest
      exact absurd hle (not_le.mpr hzc_lt)
  have hvis : find_visible_edge P i (knn i)
      = hd :: (rest.filter (fun yc => (knn i).all (fun zc =>
          zc.1 == yc.1 || decide (0 ≤ dotp (P i - P zc.1) (P yc.1 - P zc.1))))) := by
    unfold find_visible_edge
    rw [hcons]
    rw [List.filter_cons]
    rw [hcons] at hvispred
    rw [if_pos hvispred]
  -- vertex i keeps the entry (i, hd.1) = hd.2 through its own pass
  have hvis_good : ∀ p ∈ find_visible_edge P i (knn i), GoodPair P i p := by
    intro p hp
    unfold find_visible_edge at hp
    exact hknn i p (List.mem_of_mem_filter hp)
  have hpass : ∀ (M : Mtx n),
      find_safe_edges (ld i) i (find_visible_edge P i (knn i)) edge_sen M i hd.1
        = hd.2 := by
    intro M
    unfold find_safe_edges
    rw [hvis]
    rw [hvis] at hvis_good
    exact safeWriteLoop_entry_head hd _ hvis_good _ _ _ 2 _ (le_refl 2) M
  -- and through every other point's pass
  have hstep_stable : ∀ (i2 : Fin n) (M : Mtx n), M i hd.1 = hd.2 →
      find_safe_edges (ld i2) i2 (find_visible_edge P i2 (knn i2)) edge_sen M i hd.1
        = hd.2 := by
    intro i2 M hM
    unfold find_safe_edges
    refine safeWriteLoop_entry_stable _ ?_ _ _ hhd_good.1 hhd_good.2 _ _ _ hM
    intro p hp
    unfold find_visible_edge at hp
    exact hknn i2 p (List.mem_of_mem_filter hp)
  have hfold_stable : ∀ (l : List (Fin n)) (M : Mtx n), M i hd.1 = hd.2 →
      (l.foldl (fun M i2 =>
        find_safe_edges (ld i2) i2 (find_visible_edge P i2 (knn i2)) edge_sen M) M)
        i hd.1 = hd.2 := by
    intro l
    induction l with
    | nil => intro M hM; exact hM
    | cons a t ih =>
      intro M hM
      rw [List.foldl_cons]
      exact ih _ (hstep_stable a M hM)
  refine ⟨hd.1, ?_⟩
  obtain ⟨l1, l2, hsplit⟩ := List.append_of_mem (List.mem_finRange i)
  unfold build_simplex
  rw [hsplit, List.foldl_append, List.foldl_cons]
  rw [hfold_stable l2 _ (hpass _)]
  exact ne_of_gt hhd_pos

/-- C10, witness for the amended theorem: the three-point cloud `c5P`
with pairwise distinct points keeps an edge at every vertex. -/
theorem c10_no_isolated_vertex_witness :
    ∃ j, build_simplex c5P c5knn (fun _ _ => 1) 1 0 j ≠ 0 :=
  c10_no_isolated_vertex c5P c5knn (fun _ _ => 1) 1
    (by with_unfolding_all decide)
    (by with_unfolding_all decide)
    (by with_unfolding_all decide)
    (by with_unfolding_all decide)
    0

/-- Pointcloud for the C10 counterexample: points 0 .. 4 coincide at the
origin, points 5, 6, 7 sit far away at (100,0), (101,0), (102,0). -/
def c10P : Fin 8 → Vec 2 := fun i => fun j =>
  if i.val ≤ 4 then 0
  else if j = 0 then (if i.val = 5 then 100 else if i.val = 6 then 101 else 102)
  else 0

/-- Exact 2-nearest-neighbour output for `c10P` (the query point itself
removed): every duplicated origin point sees two other duplicates at
distance zero, the three far points see each other. -/
def c10knn : Fin 8 → List (Fin 8 × ℚ) := fun i =>
  if i.val = 0 then [(1, 0), (2, 0)]
  else if i.val = 1 then [(0, 0), (2, 0)]
  else if i.val ≤ 4 then [(0, 0), (1, 0)]
  else if i.val = 5 then [(6, 1), (7, 2)]
  else if i.val = 6 then [(5, 1), (7, 1)]
  else [(6, 1), (5, 2)]

/-- C10, counterexample.  The cloud `c10P` has (many) pairs of distinct
points, its KNN lists satisfy the collaborator contract (ascending exact
distances), yet after build_simplex vertex 0 has no incident edge at
all: its nearest candidates are duplicate points at distance zero, the
zero write is not an edge for np.where, and no other point ever writes
into row 0.  So two distinct points do not suffice for the claim. -/
theorem c10_isolated_vertex_counterexample :
    c10P 0 ≠ c10P 5 ∧
    (∀ i, ∀ p ∈ c10knn i, 0 ≤ p.2 ∧ p.2 * p.2 = sqDist (c10P i) (c10P p.1)) ∧
    (∀ i, (c10knn i).Pairwise (fun p q => p.2 ≤ q.2)) ∧
    (∀ j, build_simplex c10P c10knn (fun _ _ => 1) 1 0 j = 0) := by
  refine ⟨by with_unfolding_all decide, by with_unfolding_all decide,
    by with_unfolding_all decide, by with_unfolding_all decide⟩

/-!
## CoordinateSolver: Simplex.normal_coords (qrml.py 1123-1207)

The method computes all-pairs shortest paths with predecessors (scipy
dijkstra, a collaborator: parameters `dmat` and `predF`), picks the base
point p = argmin over i of amax(dmat[i]), places p implicitly at the
origin (its coordinate row is never written), places the first ring --
the direct neighbours of p -- by projecting onto a random orthonormal
tangent frame (np.random.choice, np.linalg.qr, np.linalg.lstsq, all
collaborators) and rescaling each column to the exact Euclidean length
of its edge (the parameter `ringCoords`, whose rescale contract is the
hypothesis of the theorems), and then visits every remaining point in
ascending geodesic distance from p (np.argsort, modelled by a sort that
is nondecreasing in dmat[p]).  A visited point idx with predecessor b
builds a reference list, asks the Gurobi collaborator (`solver`) for an
offset x subject to the sphere constraint x@x == alpha**2 with
alpha = norm(q - b), and writes coords[idx] = x + coords[b].  The state
additionally records, for verification only, a per-point write counter
and a flag `okPred` that remembers whether every solved point had its
predecessor placed at solve time.
-/

/-- First index attaining the minimum of f, as np.argmin. -/
def argminFin {n : ℕ} [NeZero n] (f : Fin n → ℚ) : Fin n :=
  (List.finRange n).foldl (fun best i => if f i < f best then i else best)
    ⟨0, Nat.pos_of_ne_zero (NeZero.ne n)⟩

/-- The base point p_idx = np.argmin(np.amax(dist_matrix, axis=1)). -/
def basePoint {n : ℕ} [NeZero n] (dmat : Fin n → Fin n → ℚ) : Fin n :=
  argminFin (fun i =>
    ((List.finRange n).map (dmat i)).foldl max
      (dmat i ⟨0, Nat.pos_of_ne_zero (NeZero.ne n)⟩))

/-- The visiting order sorted_inds = np.argsort(dist_matrix[p_idx]): all
indices, ordered nondecreasingly by geodesic distance from the base. -/
def visitOrder {n : ℕ} [NeZero n] (dmat : Fin n → Fin n → ℚ) : List (Fin n) :=
  List.insertionSort
    (fun a b => dmat (basePoint dmat) a ≤ dmat (basePoint dmat) b)
    (List.finRange n)

/-- State of the normal_coords pass: the coordinate rows, the
computed_points mask, and two verification-only observers (per-point
write counts and the predecessor-placed flag). -/
structure NCState (n dim : ℕ) where
  coords : Fin n → Vec dim
  computed : Fin n → Bool
  writes : Fin n → ℕ
  okPred : Bool

/-- The reference list computed_points_b of a solved point: the already
placed neighbours of the predecessor, extended -- when fewer than
dim + k0 -- by placed neighbours-of-neighbours ordered by ascending
geodesic distance to the point, capped at dim + k0. -/
def computeRefs {n : ℕ} (edgesL : Fin n → List (Fin n))
    (dmat : Fin n → Fin n → ℚ) (dim k0 : ℕ) (computed : Fin n → Bool)
    (idx pred : Fin n) : List (Fin n) :=
  let base := (edgesL pred).filter (fun i => computed i)
  if base.length < dim + k0 then
    let extra := base.flatMap (fun i =>
      (edgesL i).filter (fun j => computed j && !(base.elem j) && !(j == pred)))
    let sortedExtra := List.insertionSort (fun a b => dmat idx a ≤ dmat idx b) extra
    base ++ sortedExtra.take (k0 + dim - base.length)
  else base

/-- One iteration of the main loop of normal_coords: skip an already
placed point, otherwise solve for the offset x from the predecessor and
write coords[idx] = x + coords[pred]. -/
def ncStep {n dim : ℕ} (edgesL : Fin n → List (Fin n))
    (dmat : Fin n → Fin n → ℚ) (predF : Fin n → Fin n)
    (solver : List (Fin n) → (Fin n → Vec dim) → Fin n → Fin n → Vec dim)
    (k0 : ℕ) (s : NCState n dim) (idx : Fin n) : NCState n dim :=
  if s.computed idx then s
  else
    let pred := predF idx
    let refs := computeRefs edgesL dmat dim k0 s.computed idx pred
    let x := solver refs s.coords idx pred
    { coords := fun i => if i = idx then x + s.coords pred else s.coords i
      computed := fun i => if i = idx then true else s.computed i
      writes := fun i => if i = idx then s.writes i + 1 else s.writes i
      okPred := s.okPred && s.computed pred }

/-- Initial state of normal_coords: zero coordinates everywhere, the base
point marked computed without a write, and the first ring (the direct
neighbours of the base) written once with its tangent-frame projection. -/
def ncInit {n dim : ℕ} (edgesL : Fin n → List (Fin n)) (p : Fin n)
    (ringCoords : Fin n → Vec dim) : NCState n dim :=
  { coords := fun i => if i ∈ edgesL p then ringCoords i else 0
    computed := fun i => decide (i = p) || decide (i ∈ edgesL p)
    writes := fun i => if i ∈ edgesL p then 1 else 0
    okPred := true }

/-- Embedding of Simplex.normal_coords: fold the main loop over the
visiting order starting from the first-ring state. -/
def normal_coords {n dim : ℕ} [NeZero n] (edgesL : Fin n → List (Fin n))
    (dmat : Fin n → Fin n → ℚ) (predF : Fin n → Fin n)
    (solver : List (Fin n) → (Fin n → Vec dim) → Fin n → Fin n → Vec dim)
    (ringCoords : Fin n → Vec dim) (k0 : ℕ) : NCState n dim :=
  (visitOrder dmat).foldl (ncStep edgesL dmat predF solver k0)
    (ncInit edgesL (basePoint dmat) ringCoords)

lemma ncFold_pred_inv {n dim : ℕ} (edgesL : Fin n → List (Fin n))
    (dmat : Fin n → Fin n → ℚ) (predF : Fin n → Fin n)
    (solver : List (Fin n) → (Fin n → Vec dim) → Fin n → Fin n → Vec dim)
    (k0 : ℕ) (p : Fin n)
    (hlt : ∀ i : Fin n, i ≠ p → dmat p (predF i) < dmat p i) :
    ∀ (l : List (Fin n)) (s : NCState n dim),
      List.Pairwise (fun a b => dmat p a ≤ dmat p b) l →
      (∀ i, i ∉ l → s.computed i = true) →
      s.computed p = true →
      s.okPred = true →
      (l.foldl (ncStep edgesL dmat predF solver k0) s).okPred = true := by
  intro l
  induction l with
  | nil => intro s _ _ _ hok; exact hok
  | cons h t ih =>
    intro s hpw hout hp hok
    rw [List.foldl_cons]
    rw [List.pairwise_cons] at hpw
    by_cases hc : s.computed h = true
    · have hstep : ncStep edgesL dmat predF solver k0 s h = s := by
        unfold ncStep
        rw [if_pos hc]
      rw [hstep]
      refine ih s hpw.2 (fun i hi => ?_) hp hok
      by_cases hih : i = h
      · rw [hih]; exact hc
      · exact hout i (fun hmem => hi (List.mem_of_ne_of_mem hih hmem))
    · have hnp : h ≠ p := fun he => hc (he ▸ hp)
      have hpred_out : predF h ∉ h :: t := by
        intro hmem
        rcases List.mem_cons.mp hmem with he | ht
        · exact absurd (he ▸ hlt h hnp) (lt_irrefl _)
        · exact absurd (hpw.1 _ ht) (not_le.mpr (hlt h hnp))
      have hpredc : s.computed (predF h) = true := hout _ hpred_out
      simp only [ncStep, hc]
      rw [if_neg (by simp [hc])]
      refine ih _ hpw.2 (fun i hi => ?_) ?_ ?_
      · by_cases hih : i = h
        · simp [hih]
        · simp only [hih, if_false]
          exact hout i (fun hmem => hi (List.mem_of_ne_of_mem hih hmem))
      · simp only [if_neg (Ne.symm hnp)]
        exact hp
      · simp [hok, hpredc]

/-- C2, confirmed.  For a connected graph -- encoded by the Dijkstra
contract that every non-base point i satisfies
dmat[p, i] = dmat[p, pred i] + w i with a strictly positive edge weight
w i -- the okPred observer of normal_coords stays true: every point the
main loop actually solves has its shortest-path predecessor already
placed at that moment, because the visiting order is nondecreasing in
geodesic distance from the base and the predecessor sits strictly
closer. -/
theorem c2_normal_coords_pred_placed {n dim : ℕ} [NeZero n]
    (edgesL : Fin n → List (Fin n)) (dmat : Fin n → Fin n → ℚ)
    (predF : Fin n → Fin n)
    (solver : List (Fin n) → (Fin n → Vec dim) → Fin n → Fin n → Vec dim)
    (ringCoords : Fin n → Vec dim) (k0 : ℕ) (w : Fin n → ℚ)
    (hrec : ∀ i : Fin n, i ≠ basePoint dmat →
      dmat (basePoint dmat) i = dmat (basePoint dmat) (predF i) + w i ∧ 0 < w i) :
    (normal_coords edgesL dmat predF solver ringCoords k0).okPred = true := by
  unfold normal_coords
  have hlt : ∀ i : Fin n, i ≠ basePoint dmat →
      dmat (basePoint dmat) (predF i) < dmat (basePoint dmat) i := by
    intro i hi
    obtain ⟨heq, hpos⟩ := hrec i hi
    linarith
  refine ncFold_pred_inv edgesL dmat predF solver k0 (basePoint dmat) hlt
    (visitOrder dmat) _ ?_ ?_ ?_ rfl
  · haveI : IsTotal (Fin n)
        (fun a b => dmat (basePoint dmat) a ≤ dmat (basePoint dmat) b) :=
      ⟨fun a b => le_total _ _⟩
    haveI : IsTrans (Fin n)
        (fun a b => dmat (basePoint dmat) a ≤ dmat (basePoint dmat) b) :=
      ⟨fun a b c hab hbc => le_trans hab hbc⟩
    exact List.sorted_insertionSort _ _
  · intro i hi
    exact absurd ((List.perm_insertionSort _ _).mem_iff.mpr (List.mem_finRange i)) hi
  · unfold ncInit
    simp

lemma ncFold_main_inv {n dim d2 : ℕ} (P : Fin n → Vec d2)
    (edgesL : Fin n → List (Fin n)) (dmat : Fin n → Fin n → ℚ)
    (predF : Fin n → Fin n)
    (solver : List (Fin n) → (Fin n → Vec dim) → Fin n → Fin n → Vec dim)
    (k0 : ℕ) (p : Fin n)
    (hsolve : ∀ refs coords idx, sqNorm (solver refs coords idx (predF idx))
      = sqDist (P idx) (P (predF idx)))
    (hlt : ∀ i : Fin n, i ≠ p → dmat p (predF i) < dmat p i) :
    ∀ (l : List (Fin n)) (s : NCState n dim),
      List.Pairwise (fun a b => dmat p a ≤ dmat p b) l →
      (∀ i, i ∉ l → s.computed i = true) →
      s.computed p = true →
      (∀ i, s.computed i = true → i ≠ p →
        sqDist (s.coords i) (s.coords (predF i)) = sqDist (P i) (P (predF i)) ∧
          s.computed (predF i) = true) →
      ∀ i, (l.foldl (ncStep edgesL dmat predF solver k0) s).computed i = true ∧
        (i ≠ p →
          sqDist ((l.foldl (ncStep edgesL dmat predF solver k0) s).coords i)
              ((l.foldl (ncStep edgesL dmat predF solver k0) s).coords (predF i))
            = sqDist (P i) (P (predF i))) := by
  intro l
  induction l with
  | nil =>
    intro s _ hout hp heq i
    refine ⟨hout i (List.not_mem_nil i), fun hip => (heq i (hout i (List.not_mem_nil i)) hip).1⟩
  | cons h t ih =>
    intro s hpw hout hp heq
    rw [List.foldl_cons]
    rw [List.pairwise_cons] at hpw
    by_cases hc : s.computed h = true
    · have hstep : ncStep edgesL dmat predF solver k0 s h = s := by
        unfold ncStep
        rw [if_pos hc]
      rw [hstep]
      refine ih s hpw.2 (fun i hi => ?_) hp heq
      by_cases hih : i = h
      · rw [hih]; exact hc
      · exact hout i (fun hmem => hi (List.mem_of_ne_of_mem hih hmem))
    · have hnp : h ≠ p := fun he => hc (he ▸ hp)
      have hpred_out : predF h ∉ h :: t := by
        intro hmem
        rcases List.mem_cons.mp hmem with he | ht
        · exact absurd (he ▸ hlt h hnp) (lt_irrefl _)
        · exact absurd (hpw.1 _ ht) (not_le.mpr (hlt h hnp))
      have hpredc : s.computed (predF h) = true := hout _ hpred_out
      have hpredne : predF h ≠ h := by
        intro he
        exact absurd (he ▸ hlt h hnp) (lt_irrefl _)
      have hstep : ncStep edgesL dmat predF solver k0 s h =
          { coords := fun i => if i = h then
              solver (computeRefs edgesL dmat dim k0 s.computed h (predF h))
                s.coords h (predF h) + s.coords (predF h)
              else s.coords i
            computed := fun i => if i = h then true else s.computed i
            writes := fun i => if i = h then s.writes i + 1 else s.writes i
            okPred := s.okPred && s.computed (predF h) } := by
        unfold ncStep
        rw [if_neg (by simp [hc])]
      rw [hstep]
      refine ih _ hpw.2 (fun i hi => ?_) ?_ ?_
      · by_cases hih : i = h
        · simp [hih]
        · simp only [hih, if_false]
          exact hout i (fun hmem => hi (List.mem_of_ne_of_mem hih hmem))
      · simp only [if_neg (Ne.symm hnp)]
        exact hp
      · intro i hci hip
        simp only at hci
        by_cases hih : i = h
        · subst hih
          constructor
          · simp only [if_pos rfl, if_neg hpredne, if_true]
            rw [sqDist_add_left]
            exact hsolve _ _ i
          · simp only [if_neg hpredne]
            exact hpredc
        · rw [if_neg hih] at hci
          obtain ⟨heqi, hcpredi⟩ := heq i hci hip
          have hpredine : predF i ≠ h := by
            intro he
            rw [he] at hcpredi
            exact absurd hcpredi (by simp [hc])
          constructor
          · simp only [if_neg hih, if_neg hpredine]
            exact heqi
          · simp only [if_neg hpredine]
            exact hcpredi

/-- C1, confirmed.  Under the collaborator contracts -- the Dijkstra
recurrence with positive edge weights (connected graph), the solver
returning an offset on the sphere of squared radius equal to the squared
Euclidean length of the predecessor edge, the tangent-frame first-ring
placement rescaled to exact edge length, first-ring predecessors being
the base, and no self-loop at the base -- every non-base point ends the
pass with its coordinate at squared distance from its predecessor''s
coordinate exactly the squared Euclidean length between the two original
points. -/
theorem c1_normal_coords_edge_length {n dim d2 : ℕ} [NeZero n]
    (P : Fin n → Vec d2) (edgesL : Fin n → List (Fin n))
    (dmat : Fin n → Fin n → ℚ) (predF : Fin n → Fin n)
    (solver : List (Fin n) → (Fin n → Vec dim) → Fin n → Fin n → Vec dim)
    (ringCoords : Fin n → Vec dim) (k0 : ℕ) (w : Fin n → ℚ)
    (hrec : ∀ i : Fin n, i ≠ basePoint dmat →
      dmat (basePoint dmat) i = dmat (basePoint dmat) (predF i) + w i ∧ 0 < w i)
    (hsolve : ∀ refs coords idx, sqNorm (solver refs coords idx (predF idx))
      = sqDist (P idx) (P (predF idx)))
    (hring : ∀ y ∈ edgesL (basePoint dmat),
      sqNorm (ringCoords y) = sqDist (P y) (P (basePoint dmat)))
    (hpredring : ∀ y ∈ edgesL (basePoint dmat), predF y = basePoint dmat)
    (hpnotring : basePoint dmat ∉ edgesL (basePoint dmat)) :
    ∀ q, q ≠ basePoint dmat →
      sqDist ((normal_coords edgesL dmat predF solver ringCoords k0).coords q)
          ((normal_coords edgesL dmat predF solver ringCoords k0).coords (predF q))
        = sqDist (P q) (P (predF q)) := by
  intro q hq
  unfold normal_coords
  have hlt : ∀ i : Fin n, i ≠ basePoint dmat →
      dmat (basePoint dmat) (predF i) < dmat (basePoint dmat) i := by
    intro i hi
    obtain ⟨heqr, hpos⟩ := hrec i hi
    linarith
  have hmain := ncFold_main_inv P edgesL dmat predF solver k0 (basePoint dmat)
    hsolve hlt (visitOrder dmat) (ncInit edgesL (basePoint dmat) ringCoords)
    ?_ ?_ ?_ ?_
  · exact (hmain q).2 hq
  · haveI : IsTotal (Fin n)
        (fun a b => dmat (basePoint dmat) a ≤ dmat (basePoint dmat) b) :=
      ⟨fun a b => le_total _ _⟩
    haveI : IsTrans (Fin n)
        (fun a b => dmat (basePoint dmat) a ≤ dmat (basePoint dmat) b) :=
      ⟨fun a b c hab hbc => le_trans hab hbc⟩
    exact List.sorted_insertionSort _ _
  · intro i hi
    exact absurd ((List.perm_insertionSort _ _).mem_iff.mpr (List.mem_finRange i)) hi
  · unfold ncInit
    simp
  · intro i hci hip
    unfold ncInit at hci ⊢
    simp only [Bool.or_eq_true, decide_eq_true_eq] at hci
    rcases hci with he | hmem
    · exact absurd he hip
    · have hpi : predF i = basePoint dmat := hpredring i hmem
      constructor
      · rw [hpi]
        simp only [if_pos hmem, if_neg hpnotring]
        rw [sqDist_zero_right, hring i hmem]
      · rw [hpi]
        simp

lemma ncFold_writes_inv {n dim : ℕ} (edgesL : Fin n → List (Fin n))
    (dmat : Fin n → Fin n → ℚ) (predF : Fin n → Fin n)
    (solver : List (Fin n) → (Fin n → Vec dim) → Fin n → Fin n → Vec dim)
    (k0 : ℕ) :
    ∀ (l : List (Fin n)) (s : NCState n dim),
      (∀ i, i ∉ l → s.computed i = true) →
      (∀ i, s.writes i ≤ 1) →
      (∀ i, s.computed i = false → s.writes i = 0) →
      ∀ i, (l.foldl (ncStep edgesL dmat predF solver k0) s).computed i = true ∧
        (l.foldl (ncStep edgesL dmat predF solver k0) s).writes i ≤ 1 := by
  intro l
  induction l with
  | nil =>
    intro s hout hw _ i
    exact ⟨hout i (List.not_mem_nil i), hw i⟩
  | cons h t ih =>
    intro s hout hw hz
    rw [List.foldl_cons]
    by_cases hc : s.computed h = true
    · have hstep : ncStep edgesL dmat predF solver k0 s h = s := by
        unfold ncStep
        rw [if_pos hc]
      rw [hstep]
      refine ih s (fun i hi => ?_) hw hz
      by_cases hih : i = h
      · rw [hih]; exact hc
      · exact hout i (fun hmem => hi (List.mem_of_ne_of_mem hih hmem))
    · simp only [ncStep, hc]
      rw [if_neg (by simp [hc])]
      refine ih _ (fun i hi => ?_) (fun i => ?_) (fun i hfi => ?_)
      · by_cases hih : i = h
        · simp [hih]
        · simp only [hih, if_false]
          exact hout i (fun hmem => hi (List.mem_of_ne_of_mem hih hmem))
      · dsimp only
        by_cases hih : i = h
        · subst hih
          rw [if_pos rfl]
          have := hz i (by simpa using hc)
          omega
        · rw [if_neg hih]
          exact hw i
      · simp only at hfi
        by_cases hih : i = h
        · rw [hih] at hfi; simp at hfi
        · rw [if_neg hih] at hfi
          simp only [hih, if_false]
          exact hz i hfi

/-- C6, confirmed.  Within one normal_coords pass every coordinate row is
written at most once (the base never, the first ring once at setup, each
other point once at its solve), every point ends the pass marked
computed, and the visiting order lists every point exactly once.  Since
a write happens only while the target is still unmarked and marks it in
the same step, a row never changes after its computed flag is set. -/
theorem c6_normal_coords_write_once {n dim : ℕ} [NeZero n]
    (edgesL : Fin n → List (Fin n)) (dmat : Fin n → Fin n → ℚ)
    (predF : Fin n → Fin n)
    (solver : List (Fin n) → (Fin n → Vec dim) → Fin n → Fin n → Vec dim)
    (ringCoords : Fin n → Vec dim) (k0 : ℕ) :
    (∀ i, (normal_coords edgesL dmat predF solver ringCoords k0).writes i ≤ 1) ∧
    (∀ i, (normal_coords edgesL dmat predF solver ringCoords k0).computed i = true) ∧
    (∀ i : Fin n, (visitOrder dmat).count i = 1) := by
  have hmain := ncFold_writes_inv edgesL dmat predF solver k0 (visitOrder dmat)
    (ncInit edgesL (basePoint dmat) ringCoords) ?_ ?_ ?_
  · refine ⟨fun i => (hmain i).2, fun i => (hmain i).1, fun i => ?_⟩
    have hperm := List.perm_insertionSort
      (fun a b => dmat (basePoint dmat) a ≤ dmat (basePoint dmat) b)
      (List.finRange n)
    unfold visitOrder
    rw [hperm.count_eq]
    exact List.count_eq_one_of_mem (List.nodup_finRange n) (List.mem_finRange i)
  · intro i hi
    exact absurd ((List.perm_insertionSort _ _).mem_iff.mpr (List.mem_finRange i)) hi
  · intro i
    unfold ncInit
    dsimp only
    split <;> omega
  · intro i hfi
    unfold ncInit at hfi ⊢
    simp only [Bool.or_eq_false_iff, decide_eq_false_iff_not] at hfi
    dsimp only
    rw [if_neg hfi.2]

/-- Witness pointcloud for the CoordinateSolver theorems: four collinear
points at positions 0, 1, 2, 3 on a line. -/
def w4P : Fin 4 → Vec 1 := fun i => fun _ => (i.val : ℚ)

/-- Path graph on the witness cloud: 0 - 1 - 2 - 3. -/
def w4edges : Fin 4 → List (Fin 4) := fun i =>
  if i = 0 then [1] else if i = 1 then [0, 2] else if i = 2 then [1, 3] else [2]

/-- Geodesic distance matrix of the witness path graph. -/
def w4dmat : Fin 4 → Fin 4 → ℚ := fun i j => (((i.val : ℤ) - (j.val : ℤ)).natAbs : ℚ)

/-- Dijkstra predecessors of the witness graph from the base point 1. -/
def w4pred : Fin 4 → Fin 4 := fun i =>
  if i = 0 then 1 else if i = 1 then 0 else if i = 2 then 1 else 2

/-- A solver for the witness instance: every required offset has squared
norm 1, and the constant unit vector realises it. -/
def w4solver : List (Fin 4) → (Fin 4 → Vec 1) → Fin 4 → Fin 4 → Vec 1 :=
  fun _ _ _ _ => fun _ => 1

/-- First-ring placement for the witness instance: the two neighbours of
the base point 1 go to -1 and +1, each at exact edge length. -/
def w4ring : Fin 4 → Vec 1 := fun i => fun _ => if i = 0 then -1 else 1

set_option maxRecDepth 8000

/-- C1, witness: the edge-length theorem applied to the concrete
four-point path instance. -/
theorem c1_normal_coords_edge_length_witness :
    sqDist ((normal_coords w4edges w4dmat w4pred w4solver w4ring 0).coords 3)
        ((normal_coords w4edges w4dmat w4pred w4solver w4ring 0).coords (w4pred 3))
      = sqDist (w4P 3) (w4P (w4pred 3)) :=
  c1_normal_coords_edge_length w4P w4edges w4dmat w4pred w4solver w4ring 0
    (fun _ => 1)
    (by with_unfolding_all decide)
    (by intro refs coords; unfold w4solver; with_unfolding_all decide)
    (by with_unfolding_all decide)
    (by with_unfolding_all decide)
    (by with_unfolding_all decide)
    3 (by with_unfolding_all decide)

/-- C6, witness: the write-once theorem applied to the concrete
four-point path instance (the NeZero instance holds there). -/
theorem c6_normal_coords_write_once_witness :
    (∀ i, (normal_coords w4edges w4dmat w4pred w4solver w4ring 0).writes i ≤ 1) ∧
    (∀ i, (normal_coords w4edges w4dmat w4pred w4solver w4ring 0).computed i = true) ∧
    (∀ i : Fin 4, (visitOrder w4dmat).count i = 1) :=
  c6_normal_coords_write_once w4edges w4dmat w4pred w4solver w4ring 0

/-- C2, witness: the predecessor-already-placed theorem applied to the
concrete four-point path instance. -/
theorem c2_normal_coords_pred_placed_witness :
    (normal_coords w4edges w4dmat w4pred w4solver w4ring 0).okPred = true :=
  c2_normal_coords_pred_placed w4edges w4dmat w4pred w4solver w4ring 0
    (fun _ => 1)
    (by with_unfolding_all decide)

/-!
## BoundaryExtractor: find_orientation (qrml.py 234-252) and
## clean_boundary (qrml.py 295-342)

find_orientation walks the alpha-shape edge set: starting from the tail
of the first edge it repeatedly takes the FIRST edge whose tail is the
current point (np.where(...)[0][0]) for as many steps as there are
edges; a missing outgoing edge raises an IndexError, modelled as none.

clean_boundary first rejects the orientation (printing a message and
returning -1, modelled as none) when the number of distinct tails
differs from the number of boundary edges.  Otherwise it runs the
fixed-point cleaning: for every still-included position, gather the
following included nodes one by one (cyclically); on gathering the
tol-th node stop WITHOUT checking; after every earlier gather, check
whether any gathered node other than the first is a graph neighbour of
the current node, and if so un-include everything gathered strictly
before the furthest such neighbour (furthest along the cycle from the
current position, ties impossible for duplicate-free boundaries) and
raise the keep_looping flag; passes repeat until one changes nothing.
The embedded while loop carries fuel n + 1, enough because every
continuing pass un-includes at least one position.  Python iterates
sets in unspecified order; the embedding uses first-occurrence order,
which matters only for tie-breaking inside np.argmax, where the
compared cyclic distances are distinct for duplicate-free boundaries.
-/

/-- The first edge leaving `point`, as np.where(n_edges[:,0]==point)[0][0];
none models the IndexError when no edge leaves `point`. -/
def findEdgeFrom (edges : List (ℕ × ℕ)) (point : ℕ) : Option (ℕ × ℕ) :=
  edges.find? (fun e => e.1 == point)

/-- The ordering walk of find_orientation: follow first outgoing edges
for the given number of steps, collecting the traversed edges. -/
def orientWalk (edges : List (ℕ × ℕ)) : ℕ → ℕ → Option (List (ℕ × ℕ))
  | _, 0 => some []
  | point, steps+1 =>
    match findEdgeFrom edges point with
    | none => none
    | some e => (orientWalk edges e.2 steps).map (fun rest => e :: rest)

/-- Embedding of find_orientation with the default start point: walk
len(edges) steps from the tail of the first listed edge. -/
def find_orientation (edges : List (ℕ × ℕ)) : Option (List (ℕ × ℕ)) :=
  match edges with
  | [] => none
  | e0 :: _ => orientWalk edges e0.1 edges.length

/-- The order dictionary of clean_boundary: position of a node in the
orientation, later occurrences overwriting earlier ones. -/
def orderMap (nodes : List ℕ) (v : ℕ) : ℕ :=
  nodes.enum.foldl (fun acc p => if p.2 = v then p.1 else acc) 0

/-- Cyclic distance ahead: (pos - nodeIdx) mod n for positions below n. -/
def cycAhead (n nodeIdx pos : ℕ) : ℕ := (pos + n - nodeIdx) % n

/-- The element of the list attaining the maximal value of f, first
maximum winning, as intersection[np.argmax(...)]. -/
def argmaxList (f : ℕ → ℕ) : List ℕ → ℕ
  | [] => 0
  | a :: t => t.foldl (fun best i => if f best < f i then i else best) a

/-- Un-include the listed positions, as included[deleted_points] = False. -/
def maskDel (deleted : List ℕ) (inc : ℕ → Bool) : ℕ → Bool :=
  fun p => if deleted.elem p then false else inc p

/-- The deduplicated intersection of the gathered nodes (first one
excluded) with the graph neighbours of the current node. -/
def cbInter (E : ℕ → List ℕ) (nodes : List ℕ) (nodeIdx : ℕ) (vis2 : List ℕ) :
    List ℕ :=
  ((vis2.drop 1).filter (fun v => (E (nodes.getD nodeIdx 0)).elem v)).dedup

/-- The positions un-included at a removal event: those of the gathered
nodes strictly before the furthest connected one along the cycle. -/
def cbDeleted (E : ℕ → List ℕ) (nodes : List ℕ) (nodeIdx : ℕ) (vis2 : List ℕ) :
    List ℕ :=
  let furthest := argmaxList
    (fun v => cycAhead nodes.length nodeIdx (orderMap nodes v))
    (cbInter E nodes nodeIdx vis2)
  (vis2.take (vis2.indexOf furthest)).map (orderMap nodes)

/-- The inner gathering loop of clean_boundary for one position
`nodeIdx`: `i` is the cyclic offset being examined, `rem` the remaining
offsets, `vis` the gathered visible nodes.  Returns the updated
inclusion mask (indexed by position) and keep_looping flag. -/
def cbInner (E : ℕ → List ℕ) (nodes : List ℕ) (tol : ℕ) (nodeIdx : ℕ) :
    ℕ → ℕ → List ℕ → (ℕ → Bool) → Bool → ((ℕ → Bool) × Bool)
  | _, 0, _, inc, keep => (inc, keep)
  | i, rem+1, vis, inc, keep =>
    if inc ((nodeIdx + i) % nodes.length) = false then
      cbInner E nodes tol nodeIdx (i+1) rem vis inc keep
    else
      if (vis ++ [nodes.getD ((nodeIdx + i) % nodes.length) 0]).length = tol then
        (inc, keep)
      else
        if (cbInter E nodes nodeIdx
            (vis ++ [nodes.getD ((nodeIdx + i) % nodes.length) 0])).isEmpty then
          cbInner E nodes tol nodeIdx (i+1) rem
            (vis ++ [nodes.getD ((nodeIdx + i) % nodes.length) 0]) inc keep
        else
          cbInner E nodes tol nodeIdx (i+1) rem
            (vis ++ [nodes.getD ((nodeIdx + i) % nodes.length) 0])
            (maskDel (cbDeleted E nodes nodeIdx
              (vis ++ [nodes.getD ((nodeIdx + i) % nodes.length) 0])) inc) true

/-- One full pass of the cleaning loop over the listed positions. -/
def cbPassAux (E : ℕ → List ℕ) (nodes : List ℕ) (tol : ℕ) :
    List ℕ → (ℕ → Bool) → Bool → ((ℕ → Bool) × Bool)
  | [], inc, keep => (inc, keep)
  | nodeIdx :: rest, inc, keep =>
    if inc nodeIdx = false then cbPassAux E nodes tol rest inc keep
    else
      let r := cbInner E nodes tol nodeIdx 1 (nodes.length - 1) [] inc keep
      cbPassAux E nodes tol rest r.1 r.2

/-- One pass over all positions, with keep_looping reset to False. -/
def cbPass (E : ℕ → List ℕ) (nodes : List ℕ) (tol : ℕ) (inc : ℕ → Bool) :
    (ℕ → Bool) × Bool :=
  cbPassAux E nodes tol (List.range nodes.length) inc false

/-- The while keep_looping loop, with enough fuel to reach the fixed
point (each continuing pass removes at least one included position). -/
def cbWhile (E : ℕ → List ℕ) (nodes : List ℕ) (tol : ℕ) :
    ℕ → (ℕ → Bool) → (ℕ → Bool)
  | 0, inc => inc
  | fuel+1, inc =>
    let r := cbPass E nodes tol inc
    if r.2 then cbWhile E nodes tol fuel r.1 else r.1

/-- The cleaning run on an orientation: all positions start included. -/
def cleanRun (E : ℕ → List ℕ) (nodes : List ℕ) (tol : ℕ) : ℕ → Bool :=
  cbWhile E nodes tol (nodes.length + 1) (fun _ => true)

/-- Embedding of clean_boundary: reject the orientation (result -1,
modelled as none) when the distinct tails do not number exactly the
boundary edges, otherwise return the cleaned inclusion mask over
positions. -/
def clean_boundary (E : ℕ → List ℕ) (tol : ℕ) (orientation : List (ℕ × ℕ))
    (boundary_edges : List (ℕ × ℕ)) : Option (ℕ → Bool) :=
  if (orientation.map Prod.fst).dedup.length ≠ boundary_edges.length then none
  else some (cleanRun E (orientation.map Prod.fst) tol)

/-- The directed edge list of a closed walk through the vertices of c. -/
def cycleEdges (c : List ℕ) : List (ℕ × ℕ) := c.zip (c.rotate 1)

/-- An edge set is a true 1-cycle when it is, up to order, the edge list
of one closed duplicate-free cycle: every vertex has exactly one
outgoing and one incoming edge and the walk closes up. -/
def IsOneCycle (edges : List (ℕ × ℕ)) : Prop :=
  ∃ c : List ℕ, c ≠ [] ∧ c.Nodup ∧ edges.Perm (cycleEdges c)

lemma find?_eq_some_of_unique {α : Type} (l : List α) (p : α → Bool) (a : α)
    (ha : a ∈ l) (hpa : p a = true) (huniq : ∀ b ∈ l, p b = true → b = a) :
    l.find? p = some a := by
  induction l with
  | nil => exact absurd ha (List.not_mem_nil a)
  | cons h t ih =>
    rw [List.find?_cons]
    by_cases hh : p h = true
    · rw [hh]
      rw [huniq h (List.mem_cons_self h t) hh]
    · rw [Bool.not_eq_true] at hh
      rw [hh]
      have hat : a ∈ t := by
        rcases List.mem_cons.mp ha with he | hmem
        · rw [he] at hpa
          rw [hpa] at hh
          exact absurd hh (by simp)
        · exact hmem
      exact ih hat (fun b hb hpb => huniq b (List.mem_cons_of_mem h hb) hpb)

lemma cycleEdges_length (c : List ℕ) : (cycleEdges c).length = c.length := by
  simp [cycleEdges]

lemma cycleEdges_getD (c : List ℕ) (i : ℕ) (h : i < c.length) :
    (cycleEdges c).getD i (0, 0)
      = (c.getD i 0, c.getD ((i + 1) % c.length) 0) := by
  have hlen : 0 < c.length := Nat.lt_of_le_of_lt (Nat.zero_le i) h
  have hi : i < (cycleEdges c).length := by rw [cycleEdges_length]; exact h
  have hrot : i < (c.rotate 1).length := by rw [List.length_rotate]; exact h
  have hmod : (i + 1) % c.length < c.length := Nat.mod_lt _ hlen
  rw [List.getD_eq_getElem?_getD, List.getElem?_eq_getElem hi]
  unfold cycleEdges
  rw [List.getD_eq_getElem?_getD, List.getElem?_eq_getElem h]
  rw [List.getD_eq_getElem?_getD, List.getElem?_eq_getElem hmod]
  simp only [List.getElem_zip, List.getElem_rotate, Option.getD_some]

lemma cycleEdges_mem_getD (c : List ℕ) (i : ℕ) (h : i < c.length) :
    (c.getD i 0, c.getD ((i + 1) % c.length) 0) ∈ cycleEdges c := by
  have hi : i < (cycleEdges c).length := by rw [cycleEdges_length]; exact h
  rw [← cycleEdges_getD c i h, List.getD_eq_getElem?_getD, List.getElem?_eq_getElem hi]
  exact List.getElem_mem hi

lemma orientWalk_on_cycle (edges : List (ℕ × ℕ)) (c : List ℕ)
    (hnd : c.Nodup) (hperm : edges.Perm (cycleEdges c)) :
    ∀ (k i : ℕ), i < c.length →
      orientWalk edges (c.getD i 0) k =
        some ((List.range k).map (fun t =>
          (c.getD ((i + t) % c.length) 0, c.getD ((i + t + 1) % c.length) 0))) := by
  intro k
  induction k with
  | zero => intro i h; simp [orientWalk]
  | succ m ih =>
    intro i h
    have hlen : 0 < c.length := Nat.lt_of_le_of_lt (Nat.zero_le i) h
    have hmem : (c.getD i 0, c.getD ((i + 1) % c.length) 0) ∈ edges :=
      hperm.mem_iff.mpr (cycleEdges_mem_getD c i h)
    have huniq : ∀ b ∈ edges, (b.1 == c.getD i 0) = true →
        b = (c.getD i 0, c.getD ((i + 1) % c.length) 0) := by
      intro b hb hpb
      have hbc : b ∈ cycleEdges c := hperm.mem_iff.mp hb
      obtain ⟨j, hj, hbj⟩ := List.mem_iff_getElem.mp hbc
      have hjc : j < c.length := by rw [cycleEdges_length] at hj; exact hj
      have hbval : b = (c.getD j 0, c.getD ((j + 1) % c.length) 0) := by
        rw [← cycleEdges_getD c j hjc, List.getD_eq_getElem?_getD,
          List.getElem?_eq_getElem hj, Option.getD_some, hbj]
      rw [beq_iff_eq] at hpb
      have hfst : c.getD j 0 = c.getD i 0 := by
        rw [hbval] at hpb
        exact hpb
      have hij : j = i := by
        rw [List.getD_eq_getElem?_getD, List.getElem?_eq_getElem hjc] at hfst
        rw [List.getD_eq_getElem?_getD, List.getElem?_eq_getElem h] at hfst
        simp only [Option.getD_some] at hfst
        exact (List.Nodup.getElem_inj_iff hnd).mp hfst
      rw [hbval, hij]
    have hfind : findEdgeFrom edges (c.getD i 0)
        = some (c.getD i 0, c.getD ((i + 1) % c.length) 0) := by
      unfold findEdgeFrom
      exact find?_eq_some_of_unique edges _ _ hmem (by simp) huniq
    have hnext : (i + 1) % c.length < c.length := Nat.mod_lt _ hlen
    unfold orientWalk
    rw [hfind]
    dsimp only
    rw [ih ((i + 1) % c.length) hnext]
    rw [Option.map_some']
    congr 1
    rw [List.range_succ_eq_map, List.map_cons, List.map_map]
    congr 1
    · have h0 : (i + 0) % c.length = i := by
        rw [Nat.add_zero]
        exact Nat.mod_eq_of_lt h
      rw [h0]
    · refine List.map_congr_left (fun t _ => ?_)
      have h1 : ((i + 1) % c.length + t) % c.length = (i + (t + 1)) % c.length := by
        rw [Nat.mod_add_mod]
        congr 1
        omega
      have h2 : ((i + 1) % c.length + t + 1) % c.length
          = (i + (t + 1) + 1) % c.length := by
        have hr : (i + 1) % c.length + t + 1 = (i + 1) % c.length + (t + 1) := by
          omega
        rw [hr, Nat.mod_add_mod]
        congr 1
        omega
      simp only [Function.comp_apply]
      rw [h1, h2]

/-- C7, amended.  When the boundary edge set is a true 1-cycle, the
ordering walk succeeds, its cycle has length equal to the raw boundary
edge count, and clean_boundary proceeds past its check.  The failure
value, however, is returned EXACTLY when the walk's distinct-tail count
differs from the edge count -- a condition some non-1-cycle edge sets
(for example an open path) also pass, so not every ill-formed input is
rejected. -/
theorem c7_clean_boundary_cycle_check (E : ℕ → List ℕ) (tol : ℕ)
    (edges : List (ℕ × ℕ)) :
    (IsOneCycle edges → ∃ l, find_orientation edges = some l ∧
      l.length = edges.length ∧
      (clean_boundary E tol l edges).isSome = true) ∧
    (∀ orientation : List (ℕ × ℕ),
      clean_boundary E tol orientation edges = none ↔
        (orientation.map Prod.fst).dedup.length ≠ edges.length) := by
  constructor
  · rintro ⟨c, hne, hnd, hperm⟩
    have hlenc : edges.length = c.length := by
      rw [hperm.length_eq, cycleEdges_length]
    have hcpos : 0 < c.length := List.length_pos.mpr hne
    obtain ⟨e0, rest, hedges⟩ : ∃ e0 rest, edges = e0 :: rest := by
      cases edges with
      | nil => rw [List.length_nil] at hlenc; omega
      | cons a t => exact ⟨a, t, rfl⟩
    have he0 : e0 ∈ edges := by rw [hedges]; exact List.mem_cons_self _ _
    have he0c : e0 ∈ cycleEdges c := hperm.mem_iff.mp he0
    have hfst : e0.1 ∈ c := by
      have hm : e0.1 ∈ (cycleEdges c).map Prod.fst := List.mem_map_of_mem _ he0c
      unfold cycleEdges at hm
      rwa [List.map_fst_zip _ _ (by rw [List.length_rotate])] at hm
    obtain ⟨i0, hi0, hgi0⟩ := List.mem_iff_getElem.mp hfst
    have hstart : c.getD i0 0 = e0.1 := by
      rw [List.getD_eq_getElem?_getD, List.getElem?_eq_getElem hi0,
        Option.getD_some, hgi0]
    have hwalk := orientWalk_on_cycle edges c hnd hperm edges.length i0 hi0
    rw [hstart] at hwalk
    refine ⟨(List.range edges.length).map (fun t =>
      (c.getD ((i0 + t) % c.length) 0, c.getD ((i0 + t + 1) % c.length) 0)),
      ?_, by simp, ?_⟩
    · unfold find_orientation
      rw [hedges] at hwalk ⊢
      exact hwalk
    · have hnodup : (((List.range edges.length).map (fun t =>
          (c.getD ((i0 + t) % c.length) 0,
            c.getD ((i0 + t + 1) % c.length) 0))).map Prod.fst).Nodup := by
        rw [List.map_map]
        refine List.Nodup.map_on ?_ (List.nodup_range _)
        intro t1 ht1 t2 ht2 heq12
        rw [List.mem_range, hlenc] at ht1 ht2
        have hm1 : (i0 + t1) % c.length < c.length := Nat.mod_lt _ hcpos
        have hm2 : (i0 + t2) % c.length < c.length := Nat.mod_lt _ hcpos
        simp only [Function.comp_apply] at heq12
        rw [List.getD_eq_getElem?_getD, List.getElem?_eq_getElem hm1,
          Option.getD_some, List.getD_eq_getElem?_getD,
          List.getElem?_eq_getElem hm2, Option.getD_some] at heq12
        have hmm := (List.Nodup.getElem_inj_iff hnd).mp heq12
        have hmeq : t1 ≡ t2 [MOD c.length] :=
          Nat.ModEq.add_left_cancel' i0 hmm
        rwa [Nat.ModEq, Nat.mod_eq_of_lt ht1, Nat.mod_eq_of_lt ht2] at hmeq
      unfold clean_boundary
      rw [if_neg ?_]
      · rfl
      · rw [not_not, List.dedup_eq_self.mpr hnodup]
        simp
  · intro orientation
    unfold clean_boundary
    split
    next hcond => simp [hcond]
    next hcond => simp [hcond]

/-- Triangle boundary for the C7 witness. -/
def c7cycle : List (ℕ × ℕ) := [(0, 1), (1, 2), (2, 0)]

/-- C7, witness: the triangle edge set is a 1-cycle, so find_orientation
produces a full-length cycle and clean_boundary proceeds. -/
theorem c7_clean_boundary_cycle_check_witness :
    ∃ l, find_orientation c7cycle = some l ∧
      l.length = c7cycle.length ∧
      (clean_boundary (fun _ => []) 2 l c7cycle).isSome = true :=
  (c7_clean_boundary_cycle_check (fun _ => []) 2 c7cycle).1
    ⟨[0, 1, 2], by decide, by decide, by decide⟩

/-- Open-path boundary refuting the negative half of claim C7. -/
def c7path : List (ℕ × ℕ) := [(0, 1), (1, 2)]

/-- C7, counterexample.  The open path (0,1),(1,2) is not a well-defined
1-cycle (vertex 2 has no outgoing edge, vertex 0 no incoming one), yet
clean_boundary does NOT return its failure value on the walk produced
for it: the walk visits two distinct tails, which matches the edge
count, so the check passes and a cleaning mask is returned. -/
theorem c7_clean_boundary_counterexample :
    ¬ IsOneCycle c7path ∧
    find_orientation c7path = some [(0, 1), (1, 2)] ∧
    (clean_boundary (fun _ => []) 2 [(0, 1), (1, 2)] c7path).isSome = true := by
  refine ⟨?_, by decide, by decide⟩
  rintro ⟨c, hne, hnd, hperm⟩
  have hf : (c7path.map Prod.fst).Perm c := by
    have hp := hperm.map Prod.fst
    unfold cycleEdges at hp
    rwa [List.map_fst_zip _ _ (by rw [List.length_rotate])] at hp
  have hs : (c7path.map Prod.snd).Perm (c.rotate 1) := by
    have hp := hperm.map Prod.snd
    unfold cycleEdges at hp
    rwa [List.map_snd_zip _ _ (by rw [List.length_rotate])] at hp
  have h2c : (2 : ℕ) ∈ c := by
    have h2 : (2 : ℕ) ∈ c7path.map Prod.snd := by decide
    have hrot := hs.mem_iff.mp h2
    rwa [List.mem_rotate] at hrot
  have h2f : (2 : ℕ) ∈ c7path.map Prod.fst := hf.mem_iff.mpr h2c
  revert h2f
  decide

/-!
## QuotientAssembler: quotient identification functions (qrml.py 286-730)
## and Simplex.compute_quotient_edges (qrml.py 1631-1672)

The whole quotient pipeline is embedded below so that the error flow of
compute_quotient_edges can be stated faithfully: the Python code returns
the bare sentinel -1 (after printing a message) when the boundary fails
the 1-cycle check or when gluing_orientation meets an unseparated edge;
it returns structured tuples otherwise; and when assemble_quotient
detects an incompatible gluing it returns -1 which the caller then
CRASHES on (unpacking -1 into two names raises a TypeError), modelled by
the crash result.  Python iterates sets in unspecified order; the
embedding fixes first-occurrence order and represents a two-element
frozenset as the value-sorted pair, which affects only tie-breaking in
paths no theorem below evaluates.
-/

/-- Cyclic position (z mod n) for a possibly negative offset z. -/
def cycPos (n : ℕ) (z : ℤ) : ℕ := (z % (n : ℤ)).toNat

/-- First index of the maximal entry, as np.argmax on a list of counts. -/
def argmaxIdx (l : List ℕ) : ℕ :=
  (l.enum.foldl (fun best p => if l.getD best 0 < p.2 then p.1 else best) 0)

/-- Embedding of orientation_dist (qrml.py 287-293): cyclic distance
between two positions on the cleaned boundary. -/
def orientation_dist (currentIdx shortNodeIdx n : ℕ) : ℕ :=
  min ((currentIdx + n - shortNodeIdx) % n) ((shortNodeIdx + n - currentIdx) % n)

/-- Embedding of the function named intersection in the source (qrml.py
344-380): per boundary position, the graph connections to other boundary
points outside the cyclic window of half-width connection_tol; also the
list of positions where such connections exist. -/
def intersection_fn (E : ℕ → List ℕ) (cleanOr : List ℕ) (connectionTol : ℕ) :
    List (List ℕ) × List ℕ :=
  let n := cleanOr.length
  let shortConns := cleanOr.enum.map (fun p =>
    let neighbour := (List.range (2 * connectionTol + 1)).map (fun j =>
      cleanOr.getD (cycPos n ((p.1 : ℤ) + (j : ℤ) - (connectionTol : ℤ))) 0)
    ((E p.2).dedup.filter (fun v => !(neighbour.elem v) && cleanOr.elem v)))
  (shortConns, (shortConns.enum.filter (fun p => !(p.2.isEmpty))).map Prod.fst)

/-- The inclusive cyclic index range [a, b] reduced mod n, as the Python
list comprehensions over range(a, b+1) with % n. -/
def modRange (n a b : ℕ) : List ℕ := (List.range' a (b + 1 - a)).map (· % n)

/-- State of the identify_edges scan. -/
structure IdEdgesState where
  base : ℕ
  current : ℕ
  short : Bool
  shortEdges : List (List ℕ)
  nonShortEdges : List (List ℕ)

/-- Embedding of identify_edges (qrml.py 382-438): group the
short-circuit positions into maximal runs bridged over gaps of at most
quotient_tol, the complement forming the non-short runs, with the wrap
around the cycle handled by the appended short_idxs[0] + n. -/
def identify_edges (n : ℕ) (shortIdxs : List ℕ) (quotientTol : ℕ) :
    List (List ℕ) × List (List ℕ) :=
  match shortIdxs with
  | [] => ([], [])
  | s0 :: srest =>
    let step := fun (st : IdEdgesState) (sidx : ℕ) =>
      if sidx - st.current ≤ quotientTol then
        { st with short := true, current := sidx }
      else
        if st.short then
          { base := sidx, current := sidx, short := false,
            shortEdges := st.shortEdges ++ [modRange n st.base st.current],
            nonShortEdges := st.nonShortEdges ++ [modRange n st.current sidx] }
        else
          { base := sidx, current := sidx, short := false,
            shortEdges := st.shortEdges,
            nonShortEdges := st.nonShortEdges ++ [modRange n st.current sidx] }
    let fin := (srest ++ [s0 + n]).foldl step
      { base := s0, current := s0, short := false,
        shortEdges := [], nonShortEdges := [] }
    if fin.nonShortEdges.isEmpty then
      (fin.shortEdges ++ [List.range n], fin.nonShortEdges)
    else
      let firstShort := match fin.shortEdges with
        | [] => false
        | fe :: _ => fe.elem s0
      if fin.short && firstShort then
        (match fin.shortEdges with
         | [] => []
         | fe :: restEdges => (modRange n fin.base (s0 + n - 1) ++ fe) :: restEdges,
         fin.nonShortEdges)
      else if fin.short && !firstShort then
        (fin.shortEdges ++ [modRange n fin.base (s0 + n)], fin.nonShortEdges)
      else (fin.shortEdges, fin.nonShortEdges)

/-- The chosen splitting positions of one refine_edges candidate node:
self connections far enough (more than tol1 cyclic positions) both from
the candidate and from the previously accepted connection. -/
def chosenPoints (cleanOr : List ℕ) (shortEdgeNodes : List ℕ)
    (tol1 nodeIdx n : ℕ) (selfConnIdxs : List ℕ) : List ℕ :=
  (selfConnIdxs.foldl (fun (acc : List ℕ × ℕ) shortNodeIdx =>
    (if tol1 < orientation_dist nodeIdx shortNodeIdx n ∧
        tol1 < orientation_dist acc.2 shortNodeIdx n then
      acc.1 ++ [shortEdgeNodes.indexOf (cleanOr.getD shortNodeIdx 0)]
    else acc.1, shortNodeIdx)) ([], nodeIdx)).1

/-- Best splitting candidate found while scanning one short edge. -/
structure RefineBest where
  refine : Bool
  idxs : List ℕ
  node : ℕ
  count : ℕ

/-- The scan over the nodes of one short edge in refine_edges, keeping
the node with the most admissible self-connections. -/
def refineScan (cleanOr : List ℕ) (shortConns : List (List ℕ)) (tol1 : ℕ)
    (shortEdgeNodes : List ℕ) : RefineBest :=
  let n := cleanOr.length
  shortEdgeNodes.enum.foldl (fun best p =>
    let nodeIdx := orderMap cleanOr p.2
    let selfConns := (shortEdgeNodes.filter (fun v =>
      (shortConns.getD nodeIdx []).elem v)).dedup
    if selfConns.length ≤ best.count then best
    else
      let selfConnIdxs := List.insertionSort (fun a b => a ≤ b)
        (selfConns.map (fun v => cleanOr.indexOf v))
      let chosen := chosenPoints cleanOr shortEdgeNodes tol1 nodeIdx n selfConnIdxs
      if best.count < chosen.length then
        { refine := true, idxs := chosen, node := p.1, count := chosen.length }
      else best)
    { refine := false, idxs := [], node := 0, count := 0 }

/-- Embedding of refine_edges (qrml.py 440-506): split a short edge at
the best node's admissible self-connection positions; a full-loop edge
additionally wraps back to its first splitting point. -/
def refine_edges (shortEdges : List (List ℕ)) (tol1 : ℕ) (cleanOr : List ℕ)
    (shortConns : List (List ℕ)) : List (List ℕ) :=
  let n := cleanOr.length
  shortEdges.foldl (fun acc shortEdge =>
    let nodes := shortEdge.map (fun i => cleanOr.getD i 0)
    let best := refineScan cleanOr shortConns tol1 nodes
    if best.refine then
      let sp0 := List.insertionSort (fun a b => a ≤ b) (best.idxs ++ [best.node])
      let sp := if shortEdge.length = n then sp0 ++ [sp0.headD 0 + n] else sp0
      acc ++ (List.range (sp.length - 1)).map (fun idx =>
        (modRange n (sp.getD idx 0) (sp.getD (idx + 1) 0)).map
          (fun i => shortEdge.getD i 0))
    else acc ++ [shortEdge])
    []

/-- Embedding of connect_edges (qrml.py 508-562): match every short edge
to the partner receiving most of its cross-connections; the resulting
unordered pairs are deduplicated (a two-element frozenset is represented
by the value-sorted pair) and unmatched singletons are dropped when
either side has a genuine pairing elsewhere. -/
def connect_edges (shortEdges : List (List ℕ)) (cleanOr : List ℕ)
    (shortConns : List (List ℕ)) : List (List ℕ) :=
  let edgeConnections := shortEdges.map (fun se =>
    ((se.map (fun i => cleanOr.getD i 0)).flatMap (fun node =>
      shortConns.getD (orderMap cleanOr node) [])).dedup)
  let glued := (edgeConnections.enum.map (fun p =>
    let counts := shortEdges.map (fun se =>
      (p.2.filter (fun v => (se.map (fun i => cleanOr.getD i 0)).elem v)).length)
    let connected := argmaxIdx counts
    if p.1 = connected then [p.1]
    else [min p.1 connected, max p.1 connected])).dedup
  glued.filter (fun pair =>
    !(pair.length == 1 && glued.any (fun pair1 =>
      pair1.elem (pair.headD 0) && pair1.length != 1)))

/-- Embedding of find_connection_order (qrml.py 564-594): the maximal and
minimal positions, inside the compared short edge, of the connections of
one node; none when it has no connection there. -/
def find_connection_order (node : ℕ) (comparedNodes : List ℕ)
    (shortConns : List (List ℕ)) (cleanOr : List ℕ) : Option (ℕ × ℕ) :=
  let cc := ((shortConns.getD (orderMap cleanOr node) []).filter
    (fun v => comparedNodes.elem v)).dedup
  if cc.isEmpty then none
  else
    let orders := cc.map (fun v => comparedNodes.indexOf v)
    some (orders.foldl max 0, orders.foldl min (orders.headD 0))

/-- Running tallies of the orientation vote of gluing_orientation. -/
structure GOState where
  sameCount : ℕ
  revCount : ℕ
  start : Bool
  curMax : ℕ
  curMin : ℕ

/-- Embedding of gluing_orientation (qrml.py 596-660): for every glued
pair, vote along the first edge on whether the partner positions run
with or against its own order; an unseparated single edge aborts with
the sentinel (none). -/
def gluing_orientation (gluedEdges : List (List ℕ)) (shortEdges : List (List ℕ))
    (cleanOr : List ℕ) (shortConns : List (List ℕ)) : Option (List Bool) :=
  gluedEdges.foldl (fun acc pair =>
    match acc with
    | none => none
    | some sofar =>
      match pair with
      | [idx1, idx2] =>
        let seNodes := (shortEdges.getD idx1 []).map (fun i => cleanOr.getD i 0)
        let compared := (shortEdges.getD idx2 []).map (fun i => cleanOr.getD i 0)
        let st := seNodes.foldl (fun (st : GOState) shortNode =>
          match find_connection_order shortNode compared shortConns cleanOr with
          | none => st
          | some mm =>
            if st.start then
              { st with start := false, curMax := mm.1, curMin := mm.2 }
            else
              { sameCount := st.sameCount + (if mm.2 ≤ st.curMax then 1 else 0),
                revCount := st.revCount + (if st.curMin ≤ mm.1 then 1 else 0),
                start := false, curMax := mm.1, curMin := mm.2 })
          { sameCount := 0, revCount := 0, start := true, curMax := 0, curMin := 0 }
        some (sofar ++ [if st.sameCount < st.revCount then false else true])
      | _ => none)
    (some [])

/-- Lookup in a dictionary modelled as an association list. -/
def dictGet {α : Type} (d : List (ℕ × α)) (k : ℕ) : Option α :=
  (d.find? (fun p => p.1 == k)).map Prod.snd

/-- Assignment in a dictionary modelled as an association list:
overwrite the existing binding or append a new one. -/
def dictSet {α : Type} (d : List (ℕ × α)) (k : ℕ) (v : α) : List (ℕ × α) :=
  if d.any (fun p => p.1 == k) then
    d.map (fun p => if p.1 = k then (k, v) else p)
  else d ++ [(k, v)]

/-- Embedding of assemble_quotient (qrml.py 662-730): assign orientation
flags and colour classes along the glued pairs; an incompatible gluing
prints a message and returns -1, modelled as none. -/
def assemble_quotient (gluedEdges : List (List ℕ)) (sameOrientation : List Bool) :
    Option (List (ℕ × Bool) × List (ℕ × ℕ)) :=
  let step := fun (acc : Option (ℕ × (List (ℕ × Bool) × List (ℕ × ℕ))))
      (p : ℕ × List ℕ) =>
    match acc with
    | none => none
    | some st =>
      let colourCount := st.1
      let od := st.2.1
      let cd := st.2.2
      match p.2 with
      | [i, j] =>
        let so := sameOrientation.getD p.1 true
        if (dictGet od i).isNone && (dictGet od j).isNone then
          if so then
            some (colourCount + 1,
              dictSet (dictSet od i true) j false,
              dictSet (dictSet cd i colourCount) j colourCount)
          else
            some (colourCount + 1,
              dictSet (dictSet od i true) j true,
              dictSet (dictSet cd i colourCount) j colourCount)
        else if (dictGet od i).isSome && (dictGet od j).isSome then
          if so then
            if dictGet od i = dictGet od j then none
            else
              let cdj := dictSet cd j ((dictGet cd i).getD 0)
              let cd2 := gluedEdges.foldl (fun cdacc ge =>
                if ge.elem j then
                  let k := if ge.headD 0 ≠ j then ge.headD 0 else ge.getD 1 0
                  dictSet cdacc k ((dictGet cdj j).getD 0)
                else cdacc) cdj
              some (colourCount, od, cd2)
          else
            if dictGet od i ≠ dictGet od j then none
            else
              let cdj := dictSet cd j ((dictGet cd i).getD 0)
              let cd2 := gluedEdges.foldl (fun cdacc ge =>
                if ge.elem j then
                  let k := if ge.headD 0 ≠ j then ge.headD 0 else ge.getD 1 0
                  dictSet cdacc k ((dictGet cdj j).getD 0)
                else cdacc) cdj
              some (colourCount, od, cd2)
        else
          let i1 := if (dictGet od i).isSome then i else j
          let j1 := if (dictGet od i).isNone then i else j
          if so then
            some (colourCount, dictSet od j1 (!((dictGet od i1).getD true)),
              dictSet cd j1 ((dictGet cd i1).getD 0))
          else
            some (colourCount, dictSet od j1 ((dictGet od i1).getD true),
              dictSet cd j1 ((dictGet cd i1).getD 0))
      | _ => none
  (gluedEdges.enum.foldl step (some (0, ([], [])))).map (fun r => r.2)

/-- The possible outcomes of compute_quotient_edges, mirroring what the
Python function actually hands its caller: an uncaught exception
(crash), the bare sentinel -1, the three early structured tuples, or
the full result tuple. -/
inductive QuotRes where
  | crash : QuotRes
  | sentinel : QuotRes
  | degenerate (orientation : List (ℕ × ℕ)) (nodes : List ℕ) : QuotRes
  | noShort (nonShort : List (List ℕ)) (orientation : List (ℕ × ℕ))
      (cleanOr : List ℕ) : QuotRes
  | noShortEdges (nonShort : List (List ℕ)) (orientation : List (ℕ × ℕ))
      (cleanOr : List ℕ) : QuotRes
  | ok (shortEdges nonShort glued : List (List ℕ)) (orientation : List (ℕ × ℕ))
      (cleanOr : List ℕ) (sameOrientation : List Bool)
      (od : List (ℕ × Bool)) (cd : List (ℕ × ℕ)) : QuotRes
  deriving DecidableEq

/-- Embedding of Simplex.compute_quotient_edges (qrml.py 1631-1672), with
the alpha-shape collaborator output passed in as the boundary edge set.
A failed gluing_orientation yields the sentinel; an inconsistent
assemble_quotient yields -1 which the caller immediately unpacks into
two names, raising a TypeError, hence crash. -/
def compute_quotient_edges (E : ℕ → List ℕ) (alphaEdges : List (ℕ × ℕ))
    (tol quotientTol tol1 connectionTol : ℕ) : QuotRes :=
  match find_orientation alphaEdges with
  | none => QuotRes.crash
  | some orientation =>
    match clean_boundary E tol orientation alphaEdges with
    | none => QuotRes.sentinel
    | some included =>
      let nodes := orientation.map Prod.fst
      let includedPos := (List.range nodes.length).filter (fun p => included p)
      if includedPos.length = 2 then QuotRes.degenerate orientation nodes
      else
        let cleanOr := includedPos.map (fun p => nodes.getD p 0)
        let n := cleanOr.length
        let sc := intersection_fn E cleanOr connectionTol
        if sc.2.isEmpty then
          QuotRes.noShort [List.range n] orientation cleanOr
        else
          let ie := identify_edges n sc.2 quotientTol
          if ie.1.isEmpty then QuotRes.noShortEdges ie.2 orientation cleanOr
          else
            let shortEdges := refine_edges ie.1 tol1 cleanOr sc.1
            let glued := connect_edges shortEdges cleanOr sc.1
            match gluing_orientation glued shortEdges cleanOr sc.1 with
            | none => QuotRes.sentinel
            | some sameOr =>
              match assemble_quotient glued sameOr with
              | none => QuotRes.crash
              | some odcd =>
                QuotRes.ok shortEdges ie.2 glued orientation cleanOr sameOr
                  odcd.1 odcd.2

/-- C9, amended.  When the boundary fails the 1-cycle check -- the
GraphError of the specification -- the failure surfaces to the caller of
compute_quotient_edges as the bare sentinel -1 (after a printed
message), a value carrying no error type and no parameter name.  (The
QuotientInconsistency of assemble_quotient does not surface as a return
value at all: the caller unpacks the sentinel and raises a TypeError,
the crash outcome of the embedding.) -/
theorem c9_quotient_graph_error_sentinel (E : ℕ → List ℕ)
    (alphaEdges : List (ℕ × ℕ)) (tol quotientTol tol1 connectionTol : ℕ)
    (orientation : List (ℕ × ℕ))
    (hwalk : find_orientation alphaEdges = some orientation)
    (hfail : clean_boundary E tol orientation alphaEdges = none) :
    compute_quotient_edges E alphaEdges tol quotientTol tol1 connectionTol
      = QuotRes.sentinel := by
  unfold compute_quotient_edges
  rw [hwalk]
  dsimp only
  rw [hfail]

/-- Two disjoint triangles: a boundary edge set that is not a single
1-cycle, driving compute_quotient_edges into its GraphError path. -/
def c9edges : List (ℕ × ℕ) := [(0, 1), (1, 2), (2, 0), (3, 4), (4, 5), (5, 3)]

/-- C9, witness for the amended theorem: on the two-triangle input the
walk exists, the 1-cycle check fails, and the result is the sentinel. -/
theorem c9_quotient_graph_error_sentinel_witness :
    compute_quotient_edges (fun _ => []) c9edges 2 1 1 1 = QuotRes.sentinel :=
  c9_quotient_graph_error_sentinel (fun _ => []) c9edges 2 1 1 1
    [(0, 1), (1, 2), (2, 0), (0, 1), (1, 2), (2, 0)] (by decide)
    (by unfold clean_boundary; rw [if_pos (by decide)])

/-- C9, counterexample.  On the two-triangle input a GraphError occurs
(the orientation walk repeats vertices, so the boundary is not a single
1-cycle), yet compute_quotient_edges hands its caller the bare sentinel
-1 -- the QuotRes.sentinel value, which names no error type and no
offending parameter -- contradicting the claim that such failures
surface as typed failures naming the parameter. -/
theorem c9_quotient_sentinel_counterexample :
    (orientWalk c9edges 0 6).map (fun l => (l.map Prod.fst).dedup.length)
      = some 3 ∧
    compute_quotient_edges (fun _ => []) c9edges 2 1 1 1 = QuotRes.sentinel := by
  refine ⟨by decide, by decide⟩

/-!
## Claim C8: idempotence of the boundary-cleaning pass

The proof characterises the cleaning loop by a declarative trigger
condition: at an included position, gather the following included nodes
cyclically up to tol of them; the position triggers a removal exactly
when one of the gathered nodes other than the first is a graph
neighbour of the position's node within the window sizes the inner loop
actually checks (sizes 1 .. tol-1, the size-tol window is cut off by
the break).  The while loop terminates inside its fuel because every
continuing pass un-includes at least one position; its fixed point
satisfies the no-trigger condition everywhere, and filtering the
boundary commutes with gathering, so the re-run on the cleaned cycle
never triggers and removes nothing.
-/

/-- The positions gathered by the inner loop at `pos` after examining
cyclic offsets 1 .. i-1: the included ones, in offset order. -/
def gatherPos (nodes : List ℕ) (inc : ℕ → Bool) (pos i : ℕ) : List ℕ :=
  ((List.range' 1 (i - 1)).map (fun k => (pos + k) % nodes.length)).filter
    (fun q => inc q)

/-- The node values the inner loop can gather at `pos`: the included
following nodes, capped at tol by the break. -/
def gatherNodes (nodes : List ℕ) (inc : ℕ → Bool) (tol pos : ℕ) : List ℕ :=
  ((gatherPos nodes inc pos nodes.length).map (fun q => nodes.getD q 0)).take tol

/-- The number of gathered nodes that take part in any check: all of
them when fewer than tol were gathered, otherwise tol - 1 (the inner
loop breaks on the tol-th gather BEFORE checking). -/
def checkedLen (tol gl : ℕ) : ℕ := if gl < tol then gl else tol - 1

/-- The declarative removal condition of one position: some gathered
node other than the immediate first, inside the checked window, is a
graph neighbour of this position's node. -/
def TriggerSpec (E : ℕ → List ℕ) (nodes : List ℕ) (tol : ℕ) (inc : ℕ → Bool)
    (pos : ℕ) : Prop :=
  ∃ j, 1 ≤ j ∧ j < checkedLen tol (gatherNodes nodes inc tol pos).length ∧
    (gatherNodes nodes inc tol pos).getD j 0 ∈ E (nodes.getD pos 0)

/-- A mask is clean when no included position triggers. -/
def NoTrigger (E : ℕ → List ℕ) (nodes : List ℕ) (tol : ℕ) (inc : ℕ → Bool) : Prop :=
  ∀ pos, pos < nodes.length → inc pos = true → ¬ TriggerSpec E nodes tol inc pos

/-- The boundary nodes surviving a cleaning mask, in cycle order: the
inclusion-filtered cycle handed to the quotient stage. -/
def maskFilter (nodes : List ℕ) (inc : ℕ → Bool) : List ℕ :=
  ((List.range nodes.length).filter (fun p => inc p)).map (fun p => nodes.getD p 0)

/-- Number of included positions of a mask. -/
def trueCount (inc : ℕ → Bool) (n : ℕ) : ℕ :=
  ((List.range n).filter (fun p => inc p)).length

lemma argmaxList_mem (f : ℕ → ℕ) (l : List ℕ) (hne : l ≠ []) :
    argmaxList f l ∈ l := by
  match l with
  | [] => exact absurd rfl hne
  | a :: t =>
    unfold argmaxList
    have hgen : ∀ (t2 : List ℕ) (best : ℕ), best ∈ a :: t →
        (∀ x ∈ t2, x ∈ a :: t) →
        t2.foldl (fun b i => if f b < f i then i else b) best ∈ a :: t := by
      intro t2
      induction t2 with
      | nil => intro best hb _; exact hb
      | cons x xs ih =>
        intro best hb hsub
        rw [List.foldl_cons]
        refine ih _ ?_ (fun y hy => hsub y (List.mem_cons_of_mem x hy))
        by_cases hfx : f best < f x
        · rw [if_pos hfx]; exact hsub x (List.mem_cons_self x xs)
        · rw [if_neg hfx]; exact hb
    exact hgen t a (List.mem_cons_self a t) (fun x hx => List.mem_cons_of_mem a hx)

lemma foldl_orderAux_none (v : ℕ) (l : List (ℕ × ℕ)) (acc : ℕ)
    (h : ∀ p ∈ l, p.2 ≠ v) :
    l.foldl (fun acc p => if p.2 = v then p.1 else acc) acc = acc := by
  induction l generalizing acc with
  | nil => rfl
  | cons q t ih =>
    rw [List.foldl_cons, if_neg (h q (List.mem_cons_self q t))]
    exact ih acc (fun p hp => h p (List.mem_cons_of_mem q hp))

lemma orderMap_getD (nodes : List ℕ) (hnd : nodes.Nodup) (q : ℕ)
    (hq : q < nodes.length) :
    orderMap nodes (nodes.getD q 0) = q := by
  have hqe : q < nodes.enum.length := by rw [List.enum_length]; exact hq
  have hval : nodes.getD q 0 = nodes[q] := by
    rw [List.getD_eq_getElem?_getD, List.getElem?_eq_getElem hq, Option.getD_some]
  have henumq : nodes.enum[q] = (q, nodes[q]) := List.getElem_enum ..
  unfold orderMap
  rw [hval]
  have hdecomp : nodes.enum
      = nodes.enum.take q ++ (q, nodes[q]) :: nodes.enum.drop (q + 1) := by
    rw [← henumq, ← List.drop_eq_getElem_cons hqe, List.take_append_drop]
  rw [hdecomp, List.foldl_append, List.foldl_cons]
  rw [if_pos rfl]
  apply foldl_orderAux_none
  intro p hp hpv
  obtain ⟨j, hj, hpj⟩ := List.mem_iff_getElem.mp hp
  have hjq : q + 1 + j < nodes.length := by
    rw [List.length_drop, List.enum_length] at hj
    omega
  have hjq2 : q + 1 + j < nodes.enum.length := by
    rw [List.enum_length]
    exact hjq
  have hpd : p = (q + 1 + j, nodes[q + 1 + j]) := by
    rw [← hpj, List.getElem_drop, ← List.getElem_enum nodes (q + 1 + j) hjq2]
  rw [hpd] at hpv
  have : q + 1 + j = q := (List.Nodup.getElem_inj_iff hnd).mp hpv
  omega

lemma gatherPos_succ (nodes : List ℕ) (inc : ℕ → Bool) (pos i : ℕ) (hi : 1 ≤ i) :
    gatherPos nodes inc pos (i + 1) =
      gatherPos nodes inc pos i ++
        (if inc ((pos + i) % nodes.length) then [(pos + i) % nodes.length]
         else []) := by
  unfold gatherPos
  have h1 : i + 1 - 1 = (i - 1) + 1 := by omega
  rw [h1, List.range'_concat, List.map_append, List.filter_append]
  congr 1
  have h2 : 1 + 1 * (i - 1) = i := by omega
  rw [h2]
  by_cases hc : inc ((pos + i) % nodes.length) = true
  · simp [hc]
  · rw [Bool.not_eq_true] at hc
    simp [hc]

lemma gatherPos_prefix (nodes : List ℕ) (inc : ℕ → Bool) (pos i : ℕ)
    (hi : 1 ≤ i) (hin : i ≤ nodes.length) :
    ∃ rest, gatherPos nodes inc pos nodes.length
      = gatherPos nodes inc pos i ++ rest := by
  unfold gatherPos
  have hsplit : List.range' 1 (nodes.length - 1)
      = List.range' 1 (i - 1) ++ List.range' i (nodes.length - i) := by
    have hap := List.range'_append_1 1 (i - 1) (nodes.length - i)
    have h1 : 1 + (i - 1) = i := by omega
    have h2 : nodes.length - i + (i - 1) = nodes.length - 1 := by omega
    rw [h1, h2] at hap
    exact hap.symm
  rw [hsplit, List.map_append, List.filter_append]
  exact ⟨_, rfl⟩

lemma cbInner_inc_mono (E : ℕ → List ℕ) (nodes : List ℕ) (tol pos : ℕ) :
    ∀ (rem i : ℕ) (vis : List ℕ) (inc : ℕ → Bool) (keep : Bool) (p : ℕ),
      (cbInner E nodes tol pos i rem vis inc keep).1 p = true → inc p = true := by
  intro rem
  induction rem with
  | zero => intro i vis inc keep p h; exact h
  | succ r ih =>
    intro i vis inc keep p h
    unfold cbInner at h
    split at h
    · exact ih _ _ _ _ _ h
    · split at h
      · exact h
      · split at h
        · exact ih _ _ _ _ _ h
        · have h2 := ih _ _ _ _ _ h
          unfold maskDel at h2
          split at h2
          · exact absurd h2 (by simp)
          · exact h2

lemma cbInner_keep_mono (E : ℕ → List ℕ) (nodes : List ℕ) (tol pos : ℕ) :
    ∀ (rem i : ℕ) (vis : List ℕ) (inc : ℕ → Bool),
      (cbInner E nodes tol pos i rem vis inc true).2 = true := by
  intro rem
  induction rem with
  | zero => intro i vis inc; rfl
  | succ r ih =>
    intro i vis inc
    unfold cbInner
    split
    · exact ih _ _ _
    · split
      · rfl
      · split
        · exact ih _ _ _
        · exact ih _ _ _

lemma gather_window (nodes : List ℕ) (inc : ℕ → Bool) (tol pos i : ℕ)
    (hi : 1 ≤ i) (hin : i ≤ nodes.length)
    (hle : ((gatherPos nodes inc pos i).map (fun q => nodes.getD q 0)).length ≤ tol) :
    ∀ j, j < ((gatherPos nodes inc pos i).map (fun q => nodes.getD q 0)).length →
      (gatherNodes nodes inc tol pos).getD j 0
        = ((gatherPos nodes inc pos i).map (fun q => nodes.getD q 0)).getD j 0 ∧
      j < (gatherNodes nodes inc tol pos).length ∧
      ((gatherPos nodes inc pos i).map (fun q => nodes.getD q 0)).length
        ≤ checkedLen tol (gatherNodes nodes inc tol pos).length ∨
      ((gatherPos nodes inc pos i).map (fun q => nodes.getD q 0)).length = tol := by
  intro j hj
  obtain ⟨rest, hsplit⟩ := gatherPos_prefix nodes inc pos i hi hin
  have hG : gatherNodes nodes inc tol pos
      = (((gatherPos nodes inc pos i).map (fun q => nodes.getD q 0))
          ++ rest.map (fun q => nodes.getD q 0)).take tol := by
    unfold gatherNodes
    rw [hsplit, List.map_append]
  by_cases htol : ((gatherPos nodes inc pos i).map (fun q => nodes.getD q 0)).length = tol
  · exact Or.inr htol
  · refine Or.inl ⟨?_, ?_, ?_⟩
    · rw [hG]
      rw [List.getD_eq_getElem?_getD, List.getD_eq_getElem?_getD]
      rw [List.getElem?_take]
      rw [if_pos (lt_of_lt_of_le hj hle)]
      rw [List.getElem?_append, if_pos hj]
    · rw [hG, List.length_take, List.length_append]
      refine lt_min (lt_of_lt_of_le hj hle) ?_
      omega
    · have hlen : (gatherNodes nodes inc tol pos).length
          = min tol (((gatherPos nodes inc pos i).map (fun q => nodes.getD q 0)).length
            + (rest.map (fun q => nodes.getD q 0)).length) := by
        rw [hG, List.length_take, List.length_append]
      unfold checkedLen
      rw [hlen]
      split <;> omega

lemma cbInner_no_trigger (E : ℕ → List ℕ) (nodes : List ℕ) (tol pos : ℕ)
    (inc : ℕ → Bool) (hnt : ¬ TriggerSpec E nodes tol inc pos) :
    ∀ (rem i : ℕ) (keep : Bool), 1 ≤ i → rem = nodes.length - i →
      ((gatherPos nodes inc pos i).map (fun q => nodes.getD q 0)).length < tol →
      cbInner E nodes tol pos i rem
        ((gatherPos nodes inc pos i).map (fun q => nodes.getD q 0)) inc keep
        = (inc, keep) := by
  intro rem
  induction rem with
  | zero => intro i keep _ _ _; rfl
  | succ r ih =>
    intro i keep hi hrem hlt
    have hin : i < nodes.length := by omega
    unfold cbInner
    by_cases hinc : inc ((pos + i) % nodes.length) = false
    · rw [if_pos hinc]
      have hsame : gatherPos nodes inc pos (i + 1) = gatherPos nodes inc pos i := by
        rw [gatherPos_succ nodes inc pos i hi, hinc]
        simp
      rw [show ((gatherPos nodes inc pos i).map (fun q => nodes.getD q 0))
          = ((gatherPos nodes inc pos (i+1)).map (fun q => nodes.getD q 0)) by
        rw [hsame]]
      refine ih (i + 1) keep (by omega) (by omega) ?_
      rw [hsame]
      exact hlt
    · rw [if_neg hinc]
      rw [Bool.not_eq_false] at hinc
      have hvis2 : ((gatherPos nodes inc pos i).map (fun q => nodes.getD q 0))
          ++ [nodes.getD ((pos + i) % nodes.length) 0]
          = (gatherPos nodes inc pos (i + 1)).map (fun q => nodes.getD q 0) := by
        rw [gatherPos_succ nodes inc pos i hi, if_pos hinc, List.map_append]
        rfl
      by_cases hbreak : (((gatherPos nodes inc pos i).map (fun q => nodes.getD q 0))
          ++ [nodes.getD ((pos + i) % nodes.length) 0]).length = tol
      · rw [if_pos hbreak]
      · rw [if_neg hbreak]
        have hlt2 : ((gatherPos nodes inc pos (i+1)).map
            (fun q => nodes.getD q 0)).length < tol := by
          rw [← hvis2] at *
          rw [List.length_append] at hbreak ⊢
          simp only [List.length_cons, List.length_nil] at *
          omega
        have hempty : (cbInter E nodes pos
            (((gatherPos nodes inc pos i).map (fun q => nodes.getD q 0))
              ++ [nodes.getD ((pos + i) % nodes.length) 0])).isEmpty = true := by
          rw [List.isEmpty_iff]
          unfold cbInter
          rw [(List.dedup_eq_nil _)]
          rw [List.filter_eq_nil_iff]
          intro v hv helem
          rw [hvis2] at hv
          obtain ⟨j2, hj2, hvj2⟩ := List.mem_iff_getElem.mp hv
          have hj2len : 1 + j2 < ((gatherPos nodes inc pos (i+1)).map
              (fun q => nodes.getD q 0)).length := by
            rw [List.length_drop] at hj2
            omega
          have hvget : ((gatherPos nodes inc pos (i+1)).map
              (fun q => nodes.getD q 0)).getD (1 + j2) 0 = v := by
            rw [List.getD_eq_getElem?_getD, List.getElem?_eq_getElem hj2len,
              Option.getD_some, ← List.getElem_drop _, hvj2]
          have hwin := gather_window nodes inc tol pos (i+1) (by omega) (by omega)
            (le_of_lt hlt2) (1 + j2) hj2len
          rcases hwin with ⟨hwg, hwl, hwcl⟩ | hweq
          · refine hnt ⟨1 + j2, by omega, by omega, ?_⟩
            rw [hwg, hvget]
            exact (List.elem_iff).mp helem
          · exact absurd hweq (by omega)
        rw [if_pos hempty]
        rw [hvis2]
        exact ih (i + 1) keep (by omega) (by omega) hlt2

lemma checkedLen_le (tol gl : ℕ) : checkedLen tol gl ≤ gl := by
  unfold checkedLen
  split <;> omega

lemma cbInner_keep_false (E : ℕ → List ℕ) (nodes : List ℕ) (tol pos : ℕ)
    (inc : ℕ → Bool) :
    ∀ (rem i : ℕ) (keep : Bool), 1 ≤ i → i ≤ nodes.length →
      rem = nodes.length - i →
      ((gatherPos nodes inc pos i).map (fun q => nodes.getD q 0)).length < tol →
      (cbInner E nodes tol pos i rem
        ((gatherPos nodes inc pos i).map (fun q => nodes.getD q 0)) inc keep).2
        = false →
      cbInner E nodes tol pos i rem
        ((gatherPos nodes inc pos i).map (fun q => nodes.getD q 0)) inc keep
        = (inc, keep) ∧
      ∀ j, 1 ≤ j →
        ((gatherPos nodes inc pos i).map (fun q => nodes.getD q 0)).length ≤ j →
        j < checkedLen tol (gatherNodes nodes inc tol pos).length →
        (gatherNodes nodes inc tol pos).getD j 0 ∉ E (nodes.getD pos 0) := by
  intro rem
  induction rem with
  | zero =>
    intro i keep hi hin hrem hlt _
    have hieq : i = nodes.length := by omega
    refine ⟨rfl, fun j h1j hjge hjcl => ?_⟩
    exfalso
    have hGle : (gatherNodes nodes inc tol pos).length
        ≤ ((gatherPos nodes inc pos i).map (fun q => nodes.getD q 0)).length := by
      unfold gatherNodes
      rw [← hieq, List.length_take]
      omega
    have := checkedLen_le tol (gatherNodes nodes inc tol pos).length
    omega
  | succ r ih =>
    intro i keep hi hin hrem hlt h2
    have hiln : i < nodes.length := by omega
    unfold cbInner at h2 ⊢
    by_cases hinc : inc ((pos + i) % nodes.length) = false
    · rw [if_pos hinc] at h2 ⊢
      have hsame : gatherPos nodes inc pos (i + 1) = gatherPos nodes inc pos i := by
        rw [gatherPos_succ nodes inc pos i hi, hinc]
        simp
      rw [show ((gatherPos nodes inc pos i).map (fun q => nodes.getD q 0))
          = ((gatherPos nodes inc pos (i+1)).map (fun q => nodes.getD q 0)) by
        rw [hsame]] at h2 ⊢
      have hih := ih (i + 1) keep (by omega) (by omega) (by omega)
        (by rw [hsame]; exact hlt) h2
      refine ⟨hih.1, fun j h1j hjge hjcl => ?_⟩
      exact hih.2 j h1j hjge hjcl
    · rw [if_neg hinc] at h2 ⊢
      rw [Bool.not_eq_false] at hinc
      have hvis2 : ((gatherPos nodes inc pos i).map (fun q => nodes.getD q 0))
          ++ [nodes.getD ((pos + i) % nodes.length) 0]
          = (gatherPos nodes inc pos (i + 1)).map (fun q => nodes.getD q 0) := by
        rw [gatherPos_succ nodes inc pos i hi, if_pos hinc, List.map_append]
        rfl
      have hlen2 : ((gatherPos nodes inc pos (i+1)).map
          (fun q => nodes.getD q 0)).length
          = ((gatherPos nodes inc pos i).map (fun q => nodes.getD q 0)).length + 1 := by
        rw [← hvis2, List.length_append]
        rfl
      by_cases hbreak : (((gatherPos nodes inc pos i).map (fun q => nodes.getD q 0))
          ++ [nodes.getD ((pos + i) % nodes.length) 0]).length = tol
      · rw [if_pos hbreak] at h2 ⊢
        refine ⟨rfl, fun j h1j hjge hjcl => ?_⟩
        exfalso
        have htol2 : ((gatherPos nodes inc pos (i+1)).map
            (fun q => nodes.getD q 0)).length = tol := by
          rw [← hvis2, List.length_append]
          rw [List.length_append] at hbreak
          exact hbreak
        obtain ⟨rest, hsplit⟩ := gatherPos_prefix nodes inc pos (i+1)
          (by omega) (by omega)
        have hGlen : (gatherNodes nodes inc tol pos).length = tol := by
          unfold gatherNodes
          rw [hsplit, List.map_append, List.length_take, List.length_append, htol2]
          omega
        unfold checkedLen at hjcl
        rw [hGlen] at hjcl
        split at hjcl <;> omega
      · rw [if_neg hbreak] at h2 ⊢
        have hlt2 : ((gatherPos nodes inc pos (i+1)).map
            (fun q => nodes.getD q 0)).length < tol := by
          rw [← hvis2]
          rw [List.length_append] at hbreak ⊢
          simp only [List.length_cons, List.length_nil] at *
          omega
        by_cases hempty : (cbInter E nodes pos
            (((gatherPos nodes inc pos i).map (fun q => nodes.getD q 0))
              ++ [nodes.getD ((pos + i) % nodes.length) 0])).isEmpty = true
        · rw [if_pos hempty] at h2 ⊢
          rw [hvis2] at h2 ⊢
          have hih := ih (i + 1) keep (by omega) (by omega) (by omega) hlt2 h2
          refine ⟨hih.1, fun j h1j hjge hjcl => ?_⟩
          by_cases hjnew : ((gatherPos nodes inc pos (i+1)).map
              (fun q => nodes.getD q 0)).length ≤ j
          · exact hih.2 j h1j hjnew hjcl
          · -- j is exactly the old length: covered by the check that just passed
            have hjeq : j < ((gatherPos nodes inc pos (i+1)).map
                (fun q => nodes.getD q 0)).length := by omega
            have hwin := gather_window nodes inc tol pos (i+1) (by omega) (by omega)
              (le_of_lt hlt2) j hjeq
            rcases hwin with ⟨hwg, hwl, hwcl⟩ | hweq
            · rw [hwg]
              unfold cbInter at hempty
              rw [List.isEmpty_iff, (List.dedup_eq_nil _),
                List.filter_eq_nil_iff] at hempty
              intro hmem
              have hdropmem : ((gatherPos nodes inc pos (i+1)).map
                  (fun q => nodes.getD q 0)).getD j 0
                  ∈ (((gatherPos nodes inc pos i).map (fun q => nodes.getD q 0))
                    ++ [nodes.getD ((pos + i) % nodes.length) 0]).drop 1 := by
                rw [hvis2]
                have hj1 : j - 1 < (((gatherPos nodes inc pos (i+1)).map
                    (fun q => nodes.getD q 0)).drop 1).length := by
                  rw [List.length_drop]
                  omega
                have hget : (((gatherPos nodes inc pos (i+1)).map
                    (fun q => nodes.getD q 0)).drop 1)[j - 1] =
                    ((gatherPos nodes inc pos (i+1)).map
                      (fun q => nodes.getD q 0)).getD j 0 := by
                  rw [List.getElem_drop,
                    List.getD_eq_getElem?_getD,
                    List.getElem?_eq_getElem hjeq, Option.getD_some]
                  have hidx : 1 + (j - 1) = j := by omega
                  simp only [hidx]
                rw [← hget]
                exact List.getElem_mem hj1
              have := hempty _ hdropmem
              rw [List.elem_iff] at this
              exact this hmem
            · omega
        · rw [if_neg hempty] at h2
          exfalso
          have := cbInner_keep_mono E nodes tol pos r (i + 1)
            (((gatherPos nodes inc pos i).map (fun q => nodes.getD q 0))
              ++ [nodes.getD ((pos + i) % nodes.length) 0])
            (maskDel (cbDeleted E nodes pos
              (((gatherPos nodes inc pos i).map (fun q => nodes.getD q 0))
                ++ [nodes.getD ((pos + i) % nodes.length) 0])) inc)
          rw [h2] at this
          exact Bool.false_ne_true this

lemma gatherPos_one (nodes : List ℕ) (inc : ℕ → Bool) (pos : ℕ) :
    gatherPos nodes inc pos 1 = [] := rfl

lemma gatherPos_mem_inc (nodes : List ℕ) (inc : ℕ → Bool) (pos i q : ℕ)
    (hq : q ∈ gatherPos nodes inc pos i) : inc q = true := by
  unfold gatherPos at hq
  exact List.of_mem_filter hq

lemma gatherPos_mem_lt (nodes : List ℕ) (inc : ℕ → Bool) (pos i q : ℕ)
    (hn : 0 < nodes.length) (hq : q ∈ gatherPos nodes inc pos i) :
    q < nodes.length := by
  unfold gatherPos at hq
  have hq2 := List.mem_of_mem_filter hq
  obtain ⟨k, _, hk⟩ := List.mem_map.mp hq2
  rw [← hk]
  exact Nat.mod_lt _ hn

lemma gatherPos_nodup (nodes : List ℕ) (inc : ℕ → Bool) (pos i : ℕ)
    (hin : i ≤ nodes.length) : (gatherPos nodes inc pos i).Nodup := by
  unfold gatherPos
  refine List.Nodup.filter _ ?_
  refine List.Nodup.map_on ?_ (List.nodup_range' ..)
  intro k1 hk1 k2 hk2 heq
  rw [List.mem_range'_1] at hk1 hk2
  have hn : 0 < nodes.length := by omega
  rcases Nat.le_total k1 k2 with hle | hle
  · have hmod : (pos + k1) % nodes.length = (pos + k2) % nodes.length := heq
    have hcong : Nat.ModEq nodes.length (pos + k1) (pos + k1 + (k2 - k1)) := by
      unfold Nat.ModEq
      rw [show pos + k1 + (k2 - k1) = pos + k2 by omega]
      exact hmod
    have hdvd : nodes.length ∣ (k2 - k1) := by
      have := (Nat.modEq_iff_dvd' (Nat.le_add_right _ _)).mp hcong
      rw [Nat.add_sub_cancel_left] at this
      exact this
    have hlt : k2 - k1 < nodes.length := by omega
    have := Nat.eq_zero_of_dvd_of_lt hdvd ?_ |>.symm
    · omega
    · omega
  · have hmod : (pos + k2) % nodes.length = (pos + k1) % nodes.length := heq.symm
    have hcong : Nat.ModEq nodes.length (pos + k2) (pos + k2 + (k1 - k2)) := by
      unfold Nat.ModEq
      rw [show pos + k2 + (k1 - k2) = pos + k1 by omega]
      exact hmod
    have hdvd : nodes.length ∣ (k1 - k2) := by
      have := (Nat.modEq_iff_dvd' (Nat.le_add_right _ _)).mp hcong
      rw [Nat.add_sub_cancel_left] at this
      exact this
    have := Nat.eq_zero_of_dvd_of_lt hdvd ?_ |>.symm
    · omega
    · omega

lemma gatherMap_nodup (nodes : List ℕ) (inc : ℕ → Bool) (pos i : ℕ)
    (hnd : nodes.Nodup) (hin : i ≤ nodes.length) :
    ((gatherPos nodes inc pos i).map (fun q => nodes.getD q 0)).Nodup := by
  by_cases hn : 0 < nodes.length
  · refine List.Nodup.map_on ?_ (gatherPos_nodup nodes inc pos i hin)
    intro q1 hq1 q2 hq2 heq
    have h1 := gatherPos_mem_lt nodes inc pos i q1 hn hq1
    have h2 := gatherPos_mem_lt nodes inc pos i q2 hn hq2
    have hv1 : nodes.getD q1 0 = nodes[q1] := by
      rw [List.getD_eq_getElem?_getD, List.getElem?_eq_getElem h1, Option.getD_some]
    have hv2 : nodes.getD q2 0 = nodes[q2] := by
      rw [List.getD_eq_getElem?_getD, List.getElem?_eq_getElem h2, Option.getD_some]
    rw [hv1, hv2] at heq
    exact (List.Nodup.getElem_inj_iff hnd).mp heq
  · have hi0 : i = 0 := by omega
    rw [hi0]
    unfold gatherPos
    simp

lemma cbInner_strict (E : ℕ → List ℕ) (nodes : List ℕ) (tol pos : ℕ)
    (hnd : nodes.Nodup) (inc : ℕ → Bool) :
    ∀ (rem i : ℕ), 1 ≤ i → i ≤ nodes.length → rem = nodes.length - i →
      ((gatherPos nodes inc pos i).map (fun q => nodes.getD q 0)).length < tol →
      (cbInner E nodes tol pos i rem
        ((gatherPos nodes inc pos i).map (fun q => nodes.getD q 0)) inc false).2
        = true →
      ∃ q, q < nodes.length ∧ inc q = true ∧
        (cbInner E nodes tol pos i rem
          ((gatherPos nodes inc pos i).map (fun q => nodes.getD q 0)) inc false).1 q
          = false := by
  intro rem
  induction rem with
  | zero =>
    intro i hi hin hrem hlt h2
    unfold cbInner at h2
    simp at h2
  | succ r ih =>
    intro i hi hin hrem hlt h2
    have hiln : i < nodes.length := by omega
    have hn : 0 < nodes.length := by omega
    unfold cbInner at h2 ⊢
    by_cases hinc : inc ((pos + i) % nodes.length) = false
    · rw [if_pos hinc] at h2 ⊢
      have hsame : gatherPos nodes inc pos (i + 1) = gatherPos nodes inc pos i := by
        rw [gatherPos_succ nodes inc pos i hi, hinc]
        simp
      rw [show ((gatherPos nodes inc pos i).map (fun q => nodes.getD q 0))
          = ((gatherPos nodes inc pos (i+1)).map (fun q => nodes.getD q 0)) by
        rw [hsame]] at h2 ⊢
      exact ih (i + 1) (by omega) (by omega) (by omega)
        (by rw [hsame]; exact hlt) h2
    · rw [if_neg hinc] at h2 ⊢
      rw [Bool.not_eq_false] at hinc
      have hvis2 : ((gatherPos nodes inc pos i).map (fun q => nodes.getD q 0))
          ++ [nodes.getD ((pos + i) % nodes.length) 0]
          = (gatherPos nodes inc pos (i + 1)).map (fun q => nodes.getD q 0) := by
        rw [gatherPos_succ nodes inc pos i hi, if_pos hinc, List.map_append]
        rfl
      by_cases hbreak : (((gatherPos nodes inc pos i).map (fun q => nodes.getD q 0))
          ++ [nodes.getD ((pos + i) % nodes.length) 0]).length = tol
      · rw [if_pos hbreak] at h2
        exact absurd h2 (by simp)
      · rw [if_neg hbreak] at h2 ⊢
        have hlt2 : ((gatherPos nodes inc pos (i+1)).map
            (fun q => nodes.getD q 0)).length < tol := by
          rw [← hvis2]
          rw [List.length_append] at hbreak ⊢
          simp only [List.length_cons, List.length_nil] at *
          omega
        by_cases hempty : (cbInter E nodes pos
            (((gatherPos nodes inc pos i).map (fun q => nodes.getD q 0))
              ++ [nodes.getD ((pos + i) % nodes.length) 0])).isEmpty = true
        · rw [if_pos hempty] at h2 ⊢
          rw [hvis2] at h2 ⊢
          exact ih (i + 1) (by omega) (by omega) (by omega) hlt2 h2
        · rw [if_neg hempty] at h2 ⊢
          -- a removal event fires: the first gathered position is deleted
          obtain ⟨q0, gt, hg1⟩ : ∃ q0 gt,
              gatherPos nodes inc pos (i + 1) = q0 :: gt := by
            refine List.exists_cons_of_ne_nil ?_
            rw [gatherPos_succ nodes inc pos i hi, if_pos hinc]
            intro habs
            have := congrArg List.length habs
            rw [List.length_append] at this
            simp at this
          have hq0mem : q0 ∈ gatherPos nodes inc pos (i + 1) := by
            rw [hg1]; exact List.mem_cons_self q0 gt
          have hq0inc : inc q0 = true := gatherPos_mem_inc nodes inc pos (i+1) q0 hq0mem
          have hq0lt : q0 < nodes.length :=
            gatherPos_mem_lt nodes inc pos (i+1) q0 hn hq0mem
          have hvform : ((gatherPos nodes inc pos i).map (fun q => nodes.getD q 0))
              ++ [nodes.getD ((pos + i) % nodes.length) 0]
              = nodes.getD q0 0 :: gt.map (fun q => nodes.getD q 0) := by
            rw [hvis2, hg1, List.map_cons]
          have hvnodup : (nodes.getD q0 0 :: gt.map (fun q => nodes.getD q 0)).Nodup := by
            have hh := gatherMap_nodup nodes inc pos (i+1) hnd (by omega)
            rw [hg1, List.map_cons] at hh
            exact hh
          rw [hvform] at h2 ⊢
          set vis2 := nodes.getD q0 0 :: gt.map (fun q => nodes.getD q 0) with hvisdef
          set furthest := argmaxList
            (fun v => cycAhead nodes.length pos (orderMap nodes v))
            (cbInter E nodes pos vis2) with hfdef
          have hinterne : cbInter E nodes pos vis2 ≠ [] := by
            rw [hvform] at hempty
            intro habs
            rw [← List.isEmpty_iff] at habs
            exact hempty habs
          have hfmem : furthest ∈ cbInter E nodes pos vis2 :=
            argmaxList_mem _ _ hinterne
          have hfdrop : furthest ∈ vis2.drop 1 := by
            unfold cbInter at hfmem
            rw [List.mem_dedup] at hfmem
            exact List.mem_of_mem_filter hfmem
          have hfne : nodes.getD q0 0 ≠ furthest := by
            intro habs
            rw [List.nodup_cons] at hvnodup
            have : furthest ∈ gt.map (fun q => nodes.getD q 0) := by
              rw [hvisdef] at hfdrop
              exact hfdrop
            rw [habs] at hvnodup
            exact hvnodup.1 this
          have hidx : vis2.indexOf furthest
              = (gt.map (fun q => nodes.getD q 0)).indexOf furthest + 1 := by
            rw [hvisdef]
            exact List.indexOf_cons_ne _ hfne
          have hq0del : q0 ∈ cbDeleted E nodes pos vis2 := by
            simp only [cbDeleted]
            rw [← hfdef, hidx]
            rw [hvisdef, List.take_succ_cons, List.map_cons]
            exact List.mem_cons.mpr (Or.inl (orderMap_getD nodes hnd q0 hq0lt).symm)
          refine ⟨q0, hq0lt, hq0inc, ?_⟩
          by_cases hres : (cbInner E nodes tol pos (i+1) r vis2
              (maskDel (cbDeleted E nodes pos vis2) inc) true).1 q0 = true
          · exfalso
            have hmask := cbInner_inc_mono E nodes tol pos r (i+1) vis2
              (maskDel (cbDeleted E nodes pos vis2) inc) true q0 hres
            unfold maskDel at hmask
            rw [if_pos (List.elem_iff.mpr hq0del)] at hmask
            exact absurd hmask (by simp)
          · rw [Bool.not_eq_true] at hres
            exact hres

lemma gatherMap_one (nodes : List ℕ) (inc : ℕ → Bool) (pos : ℕ) :
    (gatherPos nodes inc pos 1).map (fun q => nodes.getD q 0) = [] := rfl

lemma cbPassAux_inc_mono (E : ℕ → List ℕ) (nodes : List ℕ) (tol : ℕ) :
    ∀ (l : List ℕ) (inc : ℕ → Bool) (keep : Bool) (p : ℕ),
      (cbPassAux E nodes tol l inc keep).1 p = true → inc p = true := by
  intro l
  induction l with
  | nil => intro inc keep p h; exact h
  | cons pos rest ih =>
    intro inc keep p h
    simp only [cbPassAux] at h
    split at h
    · exact ih _ _ _ h
    · exact cbInner_inc_mono E nodes tol pos _ _ _ _ _ _ (ih _ _ _ h)

lemma cbPassAux_keep_mono (E : ℕ → List ℕ) (nodes : List ℕ) (tol : ℕ) :
    ∀ (l : List ℕ) (inc : ℕ → Bool),
      (cbPassAux E nodes tol l inc true).2 = true := by
  intro l
  induction l with
  | nil => intro inc; rfl
  | cons pos rest ih =>
    intro inc
    simp only [cbPassAux]
    split
    · exact ih _
    · rw [cbInner_keep_mono]
      exact ih _

lemma cbPassAux_noTrigger (E : ℕ → List ℕ) (nodes : List ℕ) (tol : ℕ)
    (htol : 0 < tol) :
    ∀ (l : List ℕ) (inc : ℕ → Bool),
      NoTrigger E nodes tol inc → (∀ pos ∈ l, pos < nodes.length) →
      cbPassAux E nodes tol l inc false = (inc, false) := by
  intro l
  induction l with
  | nil => intro inc _ _; rfl
  | cons pos rest ih =>
    intro inc hnt hbound
    simp only [cbPassAux]
    by_cases hpos : inc pos = false
    · rw [if_pos hpos]
      exact ih inc hnt (fun q hq => hbound q (List.mem_cons_of_mem pos hq))
    · rw [if_neg hpos]
      rw [Bool.not_eq_false] at hpos
      have hposlt : pos < nodes.length := hbound pos (List.mem_cons_self pos rest)
      have hrun := cbInner_no_trigger E nodes tol pos inc
        (hnt pos hposlt hpos) (nodes.length - 1) 1 false (le_refl 1) rfl
        (by rw [gatherMap_one]; exact htol)
      rw [gatherMap_one] at hrun
      rw [hrun]
      exact ih inc hnt (fun q hq => hbound q (List.mem_cons_of_mem pos hq))

lemma cbPassAux_keep_false (E : ℕ → List ℕ) (nodes : List ℕ) (tol : ℕ)
    (htol : 0 < tol) :
    ∀ (l : List ℕ) (inc : ℕ → Bool),
      (∀ pos ∈ l, pos < nodes.length) →
      (cbPassAux E nodes tol l inc false).2 = false →
      (cbPassAux E nodes tol l inc false).1 = inc ∧
      ∀ pos ∈ l, inc pos = true → ¬ TriggerSpec E nodes tol inc pos := by
  intro l
  induction l with
  | nil =>
    intro inc _ _
    exact ⟨rfl, fun pos hpos => absurd hpos (List.not_mem_nil pos)⟩
  | cons pos rest ih =>
    intro inc hbound h2
    simp only [cbPassAux] at h2 ⊢
    by_cases hpos : inc pos = false
    · rw [if_pos hpos] at h2 ⊢
      have hih := ih inc (fun q hq => hbound q (List.mem_cons_of_mem pos hq)) h2
      refine ⟨hih.1, fun q hq hqinc => ?_⟩
      rcases List.mem_cons.mp hq with he | hmem
      · rw [he] at hqinc
        rw [hqinc] at hpos
        exact absurd hpos (by simp)
      · exact hih.2 q hmem hqinc
    · rw [if_neg hpos] at h2 ⊢
      rw [Bool.not_eq_false] at hpos
      have hposlt : pos < nodes.length := hbound pos (List.mem_cons_self pos rest)
      have hr2 : (cbInner E nodes tol pos 1 (nodes.length - 1) [] inc false).2
          = false := by
        by_contra habs
        rw [Bool.not_eq_false] at habs
        rw [habs] at h2
        rw [cbPassAux_keep_mono] at h2
        exact absurd h2 (by simp)
      have hA2 := cbInner_keep_false E nodes tol pos inc (nodes.length - 1) 1 false
        (le_refl 1) (by omega) rfl
        (by rw [gatherMap_one]; exact htol)
        (by rw [gatherMap_one]; exact hr2)
      rw [gatherMap_one] at hA2
      rw [hA2.1] at h2 ⊢
      have hih := ih inc (fun q hq => hbound q (List.mem_cons_of_mem pos hq)) h2
      refine ⟨hih.1, fun q hq hqinc => ?_⟩
      rcases List.mem_cons.mp hq with he | hmem
      · rw [he]
        intro htrig
        obtain ⟨j, hj1, hjcl, hjmem⟩ := htrig
        exact hA2.2 j hj1 (Nat.zero_le j) hjcl hjmem
      · exact hih.2 q hmem hqinc

lemma cbPassAux_strict (E : ℕ → List ℕ) (nodes : List ℕ) (tol : ℕ)
    (hnd : nodes.Nodup) (htol : 0 < tol) :
    ∀ (l : List ℕ) (inc : ℕ → Bool),
      (∀ pos ∈ l, pos < nodes.length) →
      (cbPassAux E nodes tol l inc false).2 = true →
      ∃ q, q < nodes.length ∧ inc q = true ∧
        (cbPassAux E nodes tol l inc false).1 q = false := by
  intro l
  induction l with
  | nil =>
    intro inc _ h2
    exact absurd h2 (by simp [cbPassAux])
  | cons pos rest ih =>
    intro inc hbound h2
    simp only [cbPassAux] at h2 ⊢
    by_cases hpos : inc pos = false
    · rw [if_pos hpos] at h2 ⊢
      exact ih inc (fun q hq => hbound q (List.mem_cons_of_mem pos hq)) h2
    · rw [if_neg hpos] at h2 ⊢
      rw [Bool.not_eq_false] at hpos
      have hposlt : pos < nodes.length := hbound pos (List.mem_cons_self pos rest)
      by_cases hr2 : (cbInner E nodes tol pos 1 (nodes.length - 1) [] inc false).2
          = false
      · have hA2 := cbInner_keep_false E nodes tol pos inc (nodes.length - 1) 1 false
          (le_refl 1) (by omega) rfl
          (by rw [gatherMap_one]; exact htol)
          (by rw [gatherMap_one]; exact hr2)
        rw [gatherMap_one] at hA2
        rw [hA2.1] at h2 ⊢
        exact ih inc (fun q hq => hbound q (List.mem_cons_of_mem pos hq)) h2
      · rw [Bool.not_eq_false] at hr2
        have hstrict := cbInner_strict E nodes tol pos hnd inc (nodes.length - 1) 1
          (le_refl 1) (by omega) rfl
          (by rw [gatherMap_one]; exact htol)
          (by rw [gatherMap_one]; exact hr2)
        rw [gatherMap_one] at hstrict
        obtain ⟨q, hqlt, hqinc, hqdel⟩ := hstrict
        refine ⟨q, hqlt, hqinc, ?_⟩
        by_contra habs
        rw [Bool.not_eq_false] at habs
        have := cbPassAux_inc_mono E nodes tol rest _ _ q habs
        rw [this] at hqdel
        exact absurd hqdel (by simp)

lemma trueCount_lt (inc inc2 : ℕ → Bool) (n : ℕ)
    (hmono : ∀ p, inc2 p = true → inc p = true)
    (q : ℕ) (hq : q < n) (hqt : inc q = true) (hqf : inc2 q = false) :
    trueCount inc2 n < trueCount inc n := by
  unfold trueCount
  have hsub : List.Sublist ((List.range n).filter (fun p => inc2 p))
      ((List.range n).filter (fun p => inc p)) :=
    List.monotone_filter_right _ (fun a ha => hmono a ha)
  refine lt_of_le_of_ne (List.Sublist.length_le hsub) ?_
  intro heq
  have heql := List.Sublist.eq_of_length hsub heq
  have hqmem : q ∈ (List.range n).filter (fun p => inc p) :=
    List.mem_filter.mpr ⟨List.mem_range.mpr hq, hqt⟩
  rw [← heql] at hqmem
  have := List.of_mem_filter hqmem
  rw [hqf] at this
  exact absurd this (by simp)

lemma cbWhile_noTrigger (E : ℕ → List ℕ) (nodes : List ℕ) (tol : ℕ)
    (hnd : nodes.Nodup) (htol : 0 < tol) :
    ∀ (fuel : ℕ) (inc : ℕ → Bool), trueCount inc nodes.length < fuel →
      NoTrigger E nodes tol (cbWhile E nodes tol fuel inc) := by
  intro fuel
  induction fuel with
  | zero => intro inc hcnt; omega
  | succ f ih =>
    intro inc hcnt
    simp only [cbWhile]
    unfold cbPass
    have hbound : ∀ pos ∈ List.range nodes.length, pos < nodes.length :=
      fun pos hpos => List.mem_range.mp hpos
    by_cases hr2 : (cbPassAux E nodes tol (List.range nodes.length) inc false).2
        = false
    · rw [hr2]
      simp only [Bool.false_eq_true, if_false]
      have hP2 := cbPassAux_keep_false E nodes tol htol
        (List.range nodes.length) inc hbound hr2
      rw [hP2.1]
      intro pos hposlt hposinc
      exact hP2.2 pos (List.mem_range.mpr hposlt) hposinc
    · rw [Bool.not_eq_false] at hr2
      rw [hr2]
      simp only [if_true]
      refine ih _ ?_
      obtain ⟨q, hqlt, hqinc, hqdel⟩ := cbPassAux_strict E nodes tol hnd htol
        (List.range nodes.length) inc hbound hr2
      have := trueCount_lt inc
        (cbPassAux E nodes tol (List.range nodes.length) inc false).1
        nodes.length (cbPassAux_inc_mono E nodes tol _ inc false) q hqlt hqinc hqdel
      omega

lemma cleanRun_noTrigger (E : ℕ → List ℕ) (nodes : List ℕ) (tol : ℕ)
    (hnd : nodes.Nodup) (htol : 0 < tol) :
    NoTrigger E nodes tol (cleanRun E nodes tol) := by
  unfold cleanRun
  refine cbWhile_noTrigger E nodes tol hnd htol _ _ ?_
  have : trueCount (fun _ => true) nodes.length = nodes.length := by
    unfold trueCount
    rw [List.filter_eq_self.mpr (fun a _ => rfl), List.length_range]
  omega

lemma map_getD_range2 {α : Type} (d : α) :
    ∀ (b a : ℕ) (l : List α), a + b ≤ l.length →
      (List.range' a b).map (fun i => l.getD i d) = (l.drop a).take b := by
  intro b
  induction b with
  | zero => intro a l _; simp
  | succ m ih =>
    intro a l hab
    have hal : a < l.length := by omega
    rw [List.range'_succ, List.map_cons, ih (a+1) l (by omega)]
    rw [List.drop_eq_getElem_cons hal, List.take_succ_cons]
    congr 1
    rw [List.getD_eq_getElem?_getD, List.getElem?_eq_getElem hal, Option.getD_some]

lemma cyc_map_high (n pos : ℕ) (h : pos < n) :
    (List.range' 1 (n - 1 - pos)).map (fun k => (pos + k) % n)
      = List.range' (pos + 1) (n - 1 - pos) := by
  have h1 : (List.range' 1 (n - 1 - pos)).map (fun k => (pos + k) % n)
      = (List.range' 1 (n - 1 - pos)).map (fun k => pos + k) := by
    refine List.map_congr_left ?_
    intro k hk
    rw [List.mem_range'_1] at hk
    exact Nat.mod_eq_of_lt (by omega)
  rw [h1, List.map_add_range']

lemma cyc_map_low (n pos : ℕ) (h : pos < n) :
    (List.range' (n - pos) pos).map (fun k => (pos + k) % n)
      = List.range' 0 pos := by
  have h1 : (List.range' (n - pos) pos).map (fun k => (pos + k) % n)
      = (List.range' (n - pos) pos).map (fun k => k - (n - pos)) := by
    refine List.map_congr_left ?_
    intro k hk
    rw [List.mem_range'_1] at hk
    rw [Nat.mod_eq_sub_mod (by omega), Nat.mod_eq_of_lt (by omega)]
    omega
  rw [h1]
  have h2 := @List.map_sub_range' 1 (n - pos) (n - pos) pos (le_refl (n - pos))
  rw [Nat.sub_self] at h2
  exact h2

lemma cyc_range_split (n pos : ℕ) (h : pos < n) :
    (List.range' 1 (n - 1)).map (fun k => (pos + k) % n)
      = List.range' (pos + 1) (n - 1 - pos) ++ List.range' 0 pos := by
  have hsplit : List.range' 1 (n - 1)
      = List.range' 1 (n - 1 - pos) ++ List.range' (n - pos) pos := by
    have hap := List.range'_append_1 1 (n - 1 - pos) pos
    rw [show 1 + (n - 1 - pos) = n - pos by omega,
      show pos + (n - 1 - pos) = n - 1 by omega] at hap
    exact hap.symm
  rw [hsplit, List.map_append, cyc_map_high n pos h, cyc_map_low n pos h]

lemma maskFilter_true (l : List ℕ) : maskFilter l (fun _ => true) = l := by
  unfold maskFilter
  rw [List.filter_eq_self.mpr (fun a _ => rfl)]
  rw [List.range_eq_range', map_getD_range2 0 l.length 0 l (by omega)]
  rw [List.drop_zero, List.take_length]

lemma noTrigger_maskFilter (E : ℕ → List ℕ) (nodes : List ℕ) (tol : ℕ)
    (inc : ℕ → Bool) (hnt : NoTrigger E nodes tol inc) :
    NoTrigger E (maskFilter nodes inc) tol (fun _ => true) := by
  intro pos2 hpos2 _
  set L := (List.range nodes.length).filter (fun p => inc p) with hLdef
  have hn2 : (maskFilter nodes inc).length = L.length := by
    unfold maskFilter
    rw [List.length_map]
  have hpos2L : pos2 < L.length := by rw [← hn2]; exact hpos2
  set pos := L.getD pos2 0 with hposdef
  have hposval : pos = L[pos2] := by
    rw [hposdef, List.getD_eq_getElem?_getD, List.getElem?_eq_getElem hpos2L,
      Option.getD_some]
  have hposmem : pos ∈ L := by
    rw [hposval]
    exact List.getElem_mem hpos2L
  have hposfacts := List.mem_filter.mp hposmem
  have hposlt : pos < nodes.length := List.mem_range.mp hposfacts.1
  have hposinc : inc pos = true := hposfacts.2
  set A := (List.range' 0 pos).filter (fun p => inc p) with hAdef
  set B := (List.range' (pos + 1) (nodes.length - 1 - pos)).filter (fun p => inc p)
    with hBdef
  have hLsplit : L = A ++ pos :: B := by
    rw [hLdef, List.range_eq_range']
    have h1 : List.range' 0 nodes.length
        = List.range' 0 pos ++ List.range' pos (nodes.length - pos) := by
      have hap := List.range'_append_1 0 pos (nodes.length - pos)
      rw [show 0 + pos = pos by omega,
        show nodes.length - pos + pos = nodes.length by omega] at hap
      exact hap.symm
    have h2 : List.range' pos (nodes.length - pos)
        = pos :: List.range' (pos + 1) (nodes.length - 1 - pos) := by
      rw [show nodes.length - pos = (nodes.length - 1 - pos) + 1 by omega]
      rw [List.range'_succ]
    rw [h1, h2, List.filter_append, List.filter_cons_of_pos hposinc]
  have hLnodup : L.Nodup := by
    rw [hLdef]
    exact List.Nodup.filter _ (List.nodup_range _)
  have hLlen : L.length = A.length + (B.length + 1) := by
    rw [hLsplit, List.length_append, List.length_cons]
  have hAlen : A.length = pos2 := by
    have hAlt : A.length < L.length := by omega
    have hgetA : L[A.length] = pos := by
      have hsome : L[A.length]? = some pos := by
        rw [hLsplit, List.getElem?_append_right (le_refl A.length), Nat.sub_self]
        exact List.getElem?_cons_zero
      rw [List.getElem?_eq_getElem hAlt] at hsome
      exact Option.some.inj hsome
    refine ((@List.Nodup.getElem_inj_iff ℕ L hLnodup pos2 hpos2L A.length
      hAlt).mp ?_).symm
    rw [hgetA, hposval]
  have hmf : maskFilter nodes inc
      = A.map (fun q => nodes.getD q 0)
        ++ nodes.getD pos 0 :: B.map (fun q => nodes.getD q 0) := by
    unfold maskFilter
    rw [← hLdef, hLsplit, List.map_append, List.map_cons]
  have hn2len : (maskFilter nodes inc).length = A.length + (B.length + 1) := by
    rw [hn2, hLlen]
  have hgather : gatherNodes (maskFilter nodes inc) (fun _ => true) tol pos2
      = gatherNodes nodes inc tol pos := by
    unfold gatherNodes
    congr 1
    have hL1 : gatherPos (maskFilter nodes inc) (fun _ => true) pos2
        (maskFilter nodes inc).length
        = (List.range' 1 ((maskFilter nodes inc).length - 1)).map
            (fun k => (pos2 + k) % (maskFilter nodes inc).length) := by
      unfold gatherPos
      rw [List.filter_eq_self.mpr (fun a _ => rfl)]
    rw [hL1, cyc_range_split (maskFilter nodes inc).length pos2 hpos2,
      List.map_append]
    rw [map_getD_range2 0 ((maskFilter nodes inc).length - 1 - pos2) (pos2 + 1)
      (maskFilter nodes inc) (by omega)]
    rw [map_getD_range2 0 pos2 0 (maskFilter nodes inc) (by omega)]
    rw [List.drop_zero]
    have hdrop : (maskFilter nodes inc).drop (pos2 + 1)
        = B.map (fun q => nodes.getD q 0) := by
      rw [hmf, List.append_cons]
      rw [show pos2 + 1
          = (A.map (fun q => nodes.getD q 0) ++ [nodes.getD pos 0]).length by
        rw [List.length_append, List.length_map, hAlen]
        rfl]
      rw [List.drop_left]
    have htake1 : (B.map (fun q => nodes.getD q 0)).take
        ((maskFilter nodes inc).length - 1 - pos2)
        = B.map (fun q => nodes.getD q 0) := by
      refine List.take_of_length_le ?_
      rw [List.length_map]
      omega
    have htake2 : (maskFilter nodes inc).take pos2
        = A.map (fun q => nodes.getD q 0) := by
      rw [hmf]
      rw [show pos2 = (A.map (fun q => nodes.getD q 0)).length by
        rw [List.length_map, hAlen]]
      rw [List.take_left]
    rw [hdrop, htake1, htake2]
    have hR1 : gatherPos nodes inc pos nodes.length
        = B ++ A := by
      unfold gatherPos
      rw [cyc_range_split nodes.length pos hposlt, List.filter_append]
    rw [hR1, List.map_append]
  have hnode : (maskFilter nodes inc).getD pos2 0 = nodes.getD pos 0 := by
    rw [hmf, List.getD_eq_getElem?_getD]
    rw [List.getElem?_append_right
      (by rw [List.length_map, hAlen] : (A.map (fun q => nodes.getD q 0)).length ≤ pos2)]
    rw [List.length_map, hAlen, Nat.sub_self]
    rw [List.getElem?_cons_zero, Option.getD_some]
  intro htrig
  obtain ⟨j, hj1, hjcl, hjmem⟩ := htrig
  rw [hgather] at hjcl hjmem
  rw [hnode] at hjmem
  exact hnt pos hposlt hposinc ⟨j, hj1, hjcl, hjmem⟩

lemma cleanRun_of_noTrigger (E : ℕ → List ℕ) (nodes : List ℕ) (tol : ℕ)
    (htol : 0 < tol) (hnt : NoTrigger E nodes tol (fun _ => true)) :
    cleanRun E nodes tol = (fun _ => true) := by
  unfold cleanRun
  simp only [cbWhile]
  unfold cbPass
  rw [cbPassAux_noTrigger E nodes tol htol _ _ hnt
    (fun pos hpos => List.mem_range.mp hpos)]
  simp

/-- Neighbour lists of a small quadrilateral boundary with one diagonal
chord (0-2), used to exercise the cleaning pass. -/
def c8E : ℕ → List ℕ :=
  fun v => if v = 0 then [1, 3, 2] else if v = 2 then [1, 3, 0]
    else if v = 1 then [0, 2] else if v = 3 then [2, 0] else []

/-- Oriented boundary walk of the quadrilateral 0-1-2-3. -/
def c8or : List (ℕ × ℕ) := [(0, 1), (1, 2), (2, 3), (3, 0)]

/-- Raw boundary edges of the quadrilateral, one per walk step. -/
def c8edges : List (ℕ × ℕ) := [(0, 1), (1, 2), (2, 3), (3, 0)]

/-- C8: the boundary-cleaning pass of clean_boundary is idempotent.  When
clean_boundary accepts an orientation whose walk has as many steps as
there are boundary edges (so the walk's node list is duplicate-free, as
the distinct-tails guard enforces) and the gathering window tol is
positive, re-running the cleaning procedure on the inclusion-filtered
cycle it returned removes no further points: the second run keeps every
position included, and filtering by its output leaves the cleaned cycle
unchanged. -/
theorem c8_clean_boundary_idempotent
    (E : ℕ → List ℕ) (tol : ℕ) (orientation boundary_edges : List (ℕ × ℕ))
    (inc1 : ℕ → Bool) (htol : 1 ≤ tol)
    (hlen : orientation.length = boundary_edges.length)
    (hrun : clean_boundary E tol orientation boundary_edges = some inc1) :
    cleanRun E (maskFilter (orientation.map Prod.fst) inc1) tol
      = (fun _ => true) ∧
    maskFilter (maskFilter (orientation.map Prod.fst) inc1)
        (cleanRun E (maskFilter (orientation.map Prod.fst) inc1) tol)
      = maskFilter (orientation.map Prod.fst) inc1 := by
  unfold clean_boundary at hrun
  by_cases hguard :
      ((orientation.map Prod.fst).dedup.length ≠ boundary_edges.length)
  · rw [if_pos hguard] at hrun
    exact absurd hrun (by simp)
  · rw [if_neg hguard] at hrun
    have hinc1 : inc1 = cleanRun E (orientation.map Prod.fst) tol :=
      (Option.some.inj hrun).symm
    have hdl : (orientation.map Prod.fst).dedup.length = boundary_edges.length :=
      not_not.mp hguard
    have hlen2 : (orientation.map Prod.fst).dedup.length
        = (orientation.map Prod.fst).length := by
      rw [hdl, ← hlen, List.length_map]
    have heq : (orientation.map Prod.fst).dedup = orientation.map Prod.fst :=
      List.Sublist.eq_of_length (List.dedup_sublist _) hlen2
    have hnd : (orientation.map Prod.fst).Nodup := by
      rw [← heq]
      exact List.nodup_dedup _
    have hnt1 : NoTrigger E (orientation.map Prod.fst) tol inc1 := by
      rw [hinc1]
      exact cleanRun_noTrigger E _ tol hnd htol
    have hnt2 := noTrigger_maskFilter E (orientation.map Prod.fst) tol inc1 hnt1
    have hfix := cleanRun_of_noTrigger E
      (maskFilter (orientation.map Prod.fst) inc1) tol htol hnt2
    exact ⟨hfix, by rw [hfix, maskFilter_true]⟩

/-- Witness for C8 at the quadrilateral with chord: the hypotheses hold
concretely and the idempotence conclusion follows by the theorem. -/
theorem c8_clean_boundary_idempotent_witness :
    cleanRun c8E (maskFilter (c8or.map Prod.fst)
        (cleanRun c8E (c8or.map Prod.fst) 3)) 3 = (fun _ => true) ∧
    maskFilter (maskFilter (c8or.map Prod.fst)
        (cleanRun c8E (c8or.map Prod.fst) 3))
        (cleanRun c8E (maskFilter (c8or.map Prod.fst)
          (cleanRun c8E (c8or.map Prod.fst) 3)) 3)
      = maskFilter (c8or.map Prod.fst) (cleanRun c8E (c8or.map Prod.fst) 3) :=
  c8_clean_boundary_idempotent c8E 3 c8or c8edges
    (cleanRun c8E (c8or.map Prod.fst) 3) (by decide) (by decide)
    (by unfold clean_boundary
        rw [if_neg (by decide)])
